import Mathlib

/-!
Voxglitch grain engine (`src/GrainEngine.hpp`).

A shallow embedding of `Grain` and `GrainEngine` together with the IEEE-754
binary32 arithmetic (`float`) that the C++ code computes with.

* `F32` embeds `float`: finite values are dyadic numbers `m * 2 ^ e`, every
  arithmetic result is rounded to nearest, ties to even, to 24 significant
  bits with exponents in `[-149, 104]`; overflow gives an infinity.  The two
  signed zeros are identified (they compare equal in C++ as well).
* `StereoSmooth` (`smooth.hpp`) is not part of the sources at hand; the grain
  code is embedded over an arbitrary implementation of its two methods.
* `Sample` is the sample buffer the grains read from.
-/

/-! binary32 arithmetic -/

/-- Fuelled bit counter behind `bitLen`. -/
def bitLenAux : Nat → Nat → Nat
  | 0, _ => 0
  | f + 1, n => if n = 0 then 0 else bitLenAux f (n / 2) + 1

/-- Number of significant bits of `n` (`0` for `0`). -/
def bitLen (n : Nat) : Nat := bitLenAux n n

/-- IEEE-754 binary32 values (`float`).  `finite m e` is the number `m * 2 ^ e`. -/
inductive F32 where
  | finite (m : Int) (e : Int)
  | inf (neg : Bool)
  | nan
  deriving DecidableEq, Repr

namespace F32

/-- The float `0.0f`. -/
def zero : F32 := finite 0 0

/-- The float `1.0f`, that is `2 ^ 23 * 2 ^ (-23)`. -/
def one : F32 := finite 8388608 (-23)

/-- Mantissa of `n * 2 ^ e` at the target exponent `t`: exact when `t ≤ e`,
otherwise the low `t - e` bits are dropped, rounding to nearest, ties to even. -/
def roundMant (n : Nat) (e t : Int) : Nat :=
  if t ≤ e then n * 2 ^ (e - t).toNat
  else
    let s := (t - e).toNat
    let q := n / 2 ^ s
    let r := n % 2 ^ s
    let half := 2 ^ (s - 1)
    if half < r ∨ (r = half ∧ q % 2 = 1) then q + 1 else q

/-- Exponent of the unit in the last place of a number with `b` significant
bits above `2 ^ e`: 24 significant bits are kept, and nothing below `2 ^ (-149)`. -/
def targetExp (b : Nat) (e : Int) : Int :=
  if e + b - 24 < -149 then -149 else e + b - 24

/-- Round the exact dyadic value `m * 2 ^ e` to binary32
(round to nearest, ties to even; overflow to infinity). -/
def round (m : Int) (e : Int) : F32 :=
  let n := m.natAbs
  if n = 0 then zero
  else
    let t := targetExp (bitLen n) e
    let n1 := roundMant n e t
    let n2 := if n1 = 16777216 then 8388608 else n1
    let t2 := if n1 = 16777216 then t + 1 else t
    if n2 = 0 then zero
    else if 104 < t2 then inf (decide (m < 0))
    else finite (if m < 0 then -(n2 : Int) else (n2 : Int)) t2

/-- Conversion of an unsigned integer to `float`. -/
def ofNat (n : Nat) : F32 := round (n : Int) 0

/-- The mantissa `m` re-expressed at the lower exponent `e - k`. -/
def shl (m : Int) (k : Nat) : Int := m * ((2 ^ k : Nat) : Int)

/-- Float addition `a + b`. -/
def add : F32 → F32 → F32
  | finite m1 e1, finite m2 e2 =>
      let e := if e1 ≤ e2 then e1 else e2
      round (shl m1 (e1 - e).toNat + shl m2 (e2 - e).toNat) e
  | nan, _ => nan
  | _, nan => nan
  | inf s1, inf s2 => if s1 = s2 then inf s1 else nan
  | inf s, finite _ _ => inf s
  | finite _ _, inf s => inf s

/-- Float negation `-a`. -/
def neg : F32 → F32
  | finite m e => finite (-m) e
  | inf s => inf (!s)
  | nan => nan

/-- Float subtraction `a - b`. -/
def sub (a b : F32) : F32 := add a (neg b)

/-- Float multiplication `a * b`. -/
def mul : F32 → F32 → F32
  | finite m1 e1, finite m2 e2 => round (m1 * m2) (e1 + e2)
  | nan, _ => nan
  | _, nan => nan
  | inf s1, inf s2 => inf (s1 != s2)
  | inf s, finite m _ => if m = 0 then nan else inf (s != decide (m < 0))
  | finite m _, inf s => if m = 0 then nan else inf (s != decide (m < 0))

/-- The C++ comparison `a < b` (false when either side is NaN). -/
def lt : F32 → F32 → Bool
  | finite m1 e1, finite m2 e2 =>
      let e := if e1 ≤ e2 then e1 else e2
      decide (shl m1 (e1 - e).toNat < shl m2 (e2 - e).toNat)
  | nan, _ => false
  | _, nan => false
  | inf s1, inf s2 => s1 && !s2
  | inf s, finite _ _ => s
  | finite _ _, inf s => !s

/-- The C++ comparison `a <= b` (false when either side is NaN). -/
def le : F32 → F32 → Bool
  | finite m1 e1, finite m2 e2 =>
      let e := if e1 ≤ e2 then e1 else e2
      decide (shl m1 (e1 - e).toNat ≤ shl m2 (e2 - e).toNat)
  | nan, _ => false
  | _, nan => false
  | inf s1, inf s2 => s1 || !s2
  | inf s, finite _ _ => s
  | finite _ _, inf s => !s

/-- The C++ comparison `a >= b`. -/
def ge (a b : F32) : Bool := le b a

/-- The C library `fmod(x, y)`: the remainder of `x / y` with the sign of `x`;
it is always exactly representable. -/
def fmod : F32 → F32 → F32
  | finite m1 e1, finite m2 e2 =>
      if m2 = 0 then nan
      else
        let e := if e1 ≤ e2 then e1 else e2
        let x := (shl m1 (e1 - e).toNat).natAbs
        let y := (shl m2 (e2 - e).toNat).natAbs
        round (if m1 < 0 then -((x % y : Nat) : Int) else ((x % y : Nat) : Int)) e
  | nan, _ => nan
  | _, nan => nan
  | inf _, _ => nan
  | finite m e, inf _ => finite m e

/-- The value truncated toward zero (`0` for infinities and NaN). -/
def trunc : F32 → Int
  | finite m e => if 0 ≤ e then shl m e.toNat else Int.tdiv m ((2 ^ (-e).toNat : Nat) : Int)
  | _ => 0

/-- Conversion `float → unsigned int`.  C++ defines it when the truncated value
fits in 32 bits; outside that range the behaviour is undefined, and the value
taken here is the one x86-64 code computes (the low 32 bits of a 64-bit
truncating conversion, whose out-of-range result is `2 ^ 63`). -/
def toUInt32 : F32 → Nat
  | finite m e =>
      let t := trunc (finite m e)
      if t.natAbs < 2 ^ 63 then (t % ((2 ^ 32 : Nat) : Int)).toNat else 0
  | _ => 0

end F32

/-- The constant `REMOVAL_RAMP_ACCUMULATOR`, `0.01f`: the binary32 number nearest to
`1/100`, which is `10737418 * 2 ^ (-30)`. -/
def REMOVAL_RAMP_ACCUMULATOR : F32 := F32.finite 10737418 (-30)

/-! Data model -/

/-- Modelled from the spec: the type `Sample` is not among the sources; spec §3
describes it as a stereo buffer pair (`leftPlayBuffer`, `rightPlayBuffer`)
addressed by integer index, with the frame count `total_sample_count`.
Reading a buffer past its end is undefined in C++; the embedding reads `0.0f`
there. -/
structure Sample where
  leftPlayBuffer : List F32
  rightPlayBuffer : List F32
  total_sample_count : Nat

/-- Modelled from the spec: `StereoSmooth` (`smooth.hpp`) is not among the
sources, so the grain code takes an implementation as a parameter: a
default-constructed filter state, `process(left, right, rate)` returning the
smoothed pair together with the new filter state, and `trigger()` (spec §4.1). -/
structure StereoSmooth (σ : Type) where
  init : σ
  process : σ → F32 → F32 → F32 → (F32 × F32) × σ
  trigger : σ → σ

/-- The struct `Grain`. -/
structure Grain (σ : Type) where
  start_position : F32
  playback_length : F32
  sample_ptr : Sample
  playback_position : F32
  sample_position : Nat
  loop_smooth : σ
  removal_smoothing_ramp : F32
  output_voltage_left : F32
  output_voltage_right : F32
  marked_for_removal : Bool
  erase_me : Bool

/-- The struct `GrainEngine`: the deque of grains, oldest first. -/
structure GrainEngine (σ : Type) where
  grain_queue : List (Grain σ)

variable {σ : Type}

/-! Grain operations -/

/-- Index at which `getStereoOutput` reads both channel buffers:
`(unsigned)(start_position + playback_position) % total_sample_count`.
(`% 0` is undefined in C++; here it leaves the index as it is.) -/
def Grain.readIndex (g : Grain σ) : Nat :=
  F32.toUInt32 (F32.add g.start_position g.playback_position) % g.sample_ptr.total_sample_count

/-- The method `Grain::getStereoOutput(smooth_rate)`: the returned pair and the grain afterwards. -/
def Grain.getStereoOutput (S : StereoSmooth σ) (g : Grain σ) (smooth_rate : F32) :
    (F32 × F32) × Grain σ :=
  if g.erase_me = true then ((F32.zero, F32.zero), g)
  else
    let i := g.readIndex
    let sm := S.process g.loop_smooth
      (g.sample_ptr.leftPlayBuffer.getD i F32.zero)
      (g.sample_ptr.rightPlayBuffer.getD i F32.zero) smooth_rate
    let g1 : Grain σ := { g with
      sample_position := i
      output_voltage_left := sm.1.1
      output_voltage_right := sm.1.2
      loop_smooth := sm.2 }
    if g1.marked_for_removal && F32.lt g1.removal_smoothing_ramp F32.one then
      let ramp := F32.add g1.removal_smoothing_ramp REMOVAL_RAMP_ACCUMULATOR
      let l := F32.mul g1.output_voltage_left (F32.sub F32.one ramp)
      let r := F32.mul g1.output_voltage_right (F32.sub F32.one ramp)
      ((l, r), { g1 with
        removal_smoothing_ramp := ramp
        output_voltage_left := l
        output_voltage_right := r
        erase_me := if F32.ge ramp F32.one then true else g1.erase_me })
    else ((g1.output_voltage_left, g1.output_voltage_right), g1)

/-- The method `Grain::step(step_amount)`. -/
def Grain.step (S : StereoSmooth σ) (g : Grain σ) (step_amount : F32) : Grain σ :=
  if g.erase_me = false then
    let p := F32.add g.playback_position step_amount
    if F32.ge p g.playback_length then
      { g with
        playback_position := F32.fmod p g.playback_length
        loop_smooth := S.trigger g.loop_smooth }
    else { g with playback_position := p }
  else g

/-- The method `Grain::markForRemoval()`. -/
def Grain.markForRemoval (g : Grain σ) : Grain σ :=
  if g.marked_for_removal = false then { g with marked_for_removal := true } else g

/-! Engine operations -/

/-- The empty engine built by the constructor `GrainEngine()`. -/
def GrainEngine.empty : GrainEngine σ := { grain_queue := [] }

/-- The method `GrainEngine::markAllForRemoval()`. -/
def GrainEngine.markAllForRemoval (eng : GrainEngine σ) : GrainEngine σ :=
  { grain_queue := eng.grain_queue.map Grain.markForRemoval }

/-- The method `GrainEngine::size()`. -/
def GrainEngine.size (eng : GrainEngine σ) : Nat := eng.grain_queue.length

/-- The method `GrainEngine::isEmpty()`. -/
def GrainEngine.isEmpty (eng : GrainEngine σ) : Bool := eng.grain_queue.isEmpty

/-- The grain that `add` configures: a default-constructed `Grain` with the
three playback fields set. -/
def Grain.fresh (S : StereoSmooth σ) (start_position playback_length : F32)
    (sample_ptr : Sample) : Grain σ :=
  { start_position := start_position
    playback_length := playback_length
    sample_ptr := sample_ptr
    playback_position := F32.zero
    sample_position := 0
    loop_smooth := S.init
    removal_smoothing_ramp := F32.zero
    output_voltage_left := F32.zero
    output_voltage_right := F32.zero
    marked_for_removal := false
    erase_me := false }

/-- The method `GrainEngine::add(start_position, playback_length, sample_ptr)`. -/
def GrainEngine.add (S : StereoSmooth σ) (eng : GrainEngine σ)
    (start_position playback_length : F32) (sample_ptr : Sample) : GrainEngine σ :=
  { grain_queue := eng.grain_queue ++ [Grain.fresh S start_position playback_length sample_ptr] }

/-- The loop `for (i = 0; i < nth; i++) grain_queue[i].markForRemoval();`
after `n` iterations. -/
def GrainEngine.markLoop (q : List (Grain σ)) : Nat → List (Grain σ)
  | 0 => q
  | i + 1 => List.modify Grain.markForRemoval i (GrainEngine.markLoop q i)

/-- The method `GrainEngine::markOldestForRemoval(nth)`. -/
def GrainEngine.markOldestForRemoval (eng : GrainEngine σ) (nth : Nat) : GrainEngine σ :=
  if nth ≥ eng.grain_queue.length then eng.markAllForRemoval
  else { grain_queue := GrainEngine.markLoop eng.grain_queue nth }

/-- The mixing loop of `process`: visits the grains front to back, carrying
the two running sums; a grain with `erase_me` set is skipped. -/
def GrainEngine.processLoop (S : StereoSmooth σ) (smooth_rate step_amount : F32) :
    List (Grain σ) → F32 × F32 → (F32 × F32) × List (Grain σ)
  | [], mix => (mix, [])
  | g :: gs, mix =>
      if g.erase_me != true then
        let out := g.getStereoOutput S smooth_rate
        let rest := GrainEngine.processLoop S smooth_rate step_amount gs
          (F32.add mix.1 out.1.1, F32.add mix.2 out.1.2)
        (rest.1, out.2.step S step_amount :: rest.2)
      else
        let rest := GrainEngine.processLoop S smooth_rate step_amount gs mix
        (rest.1, g :: rest.2)

/-- The method `GrainEngine::process(smooth_rate, step_amount)`: the returned
mix and the engine afterwards (the erase–remove idiom is a stable filter). -/
def GrainEngine.process (S : StereoSmooth σ) (eng : GrainEngine σ)
    (smooth_rate step_amount : F32) : (F32 × F32) × GrainEngine σ :=
  let res := GrainEngine.processLoop S smooth_rate step_amount eng.grain_queue
    (F32.zero, F32.zero)
  (res.1, { grain_queue := res.2.filter (fun g => !g.erase_me) })

/-! Notions used in the statements -/

/-- A grain as `process` leaves it after the mixing loop: untouched when it was
already retired, otherwise read with `getStereoOutput` and then stepped. -/
def Grain.visit (S : StereoSmooth σ) (smooth_rate step_amount : F32) (g : Grain σ) : Grain σ :=
  if g.erase_me = true then g else (g.getStereoOutput S smooth_rate).2.step S step_amount

/-- Left-to-right float sum starting from `0.0f`. -/
def F32.sum (xs : List F32) : F32 := xs.foldl F32.add F32.zero

namespace F32

/-- Mantissa and exponent of a non-zero binary32 number in normal form:
24 bits with the leading one set, or fewer bits at the least exponent. -/
def CanonMant (n : Nat) (t : Int) : Prop :=
  0 < n ∧ n < 16777216 ∧ -149 ≤ t ∧ t ≤ 104 ∧ (8388608 ≤ n ∨ t = -149)

instance (n : Nat) (t : Int) : Decidable (CanonMant n t) := by
  unfold CanonMant; infer_instance

/-- The values of the type that are binary32 numbers in normal form
(`round` produces no others). -/
def Valid : F32 → Prop
  | finite m e => (m = 0 ∧ e = 0) ∨ CanonMant m.natAbs e
  | _ => True

instance (x : F32) : Decidable (Valid x) := by
  cases x <;> unfold Valid <;> infer_instance

end F32

/-- Engine states reachable from the empty engine by the four mutating
operations of the public interface. -/
inductive GrainEngine.Reachable (S : StereoSmooth σ) : GrainEngine σ → Prop where
  | empty : GrainEngine.Reachable S GrainEngine.empty
  | add {eng : GrainEngine σ} (h : GrainEngine.Reachable S eng)
      (start_position playback_length : F32) (sample_ptr : Sample) :
      GrainEngine.Reachable S (eng.add S start_position playback_length sample_ptr)
  | markAllForRemoval {eng : GrainEngine σ} (h : GrainEngine.Reachable S eng) :
      GrainEngine.Reachable S eng.markAllForRemoval
  | markOldestForRemoval {eng : GrainEngine σ} (h : GrainEngine.Reachable S eng) (nth : Nat) :
      GrainEngine.Reachable S (eng.markOldestForRemoval nth)
  | process {eng : GrainEngine σ} (h : GrainEngine.Reachable S eng)
      (smooth_rate step_amount : F32) :
      GrainEngine.Reachable S (eng.process S smooth_rate step_amount).2

/-- Modelled from the spec: `StereoSmooth` (`smooth.hpp`) is not among the
sources.  This is the filter at steady state, where `process` returns its
input unchanged (spec §4.1; the call site says "passthrough unmodified when
not triggered"); it serves as the filter of the concrete examples. -/
def StereoSmooth.passthrough : StereoSmooth Unit :=
  { init := ()
    process := fun _ left right _ => ((left, right), ())
    trigger := fun _ => () }

/-- A one-frame sample holding `1.0f` on both channels. -/
def Sample.unit : Sample :=
  { leftPlayBuffer := [F32.one]
    rightPlayBuffer := [F32.one]
    total_sample_count := 1 }

/-- One call of a grain method. -/
inductive GrainCall where
  | getStereoOutput (smooth_rate : F32)
  | step (step_amount : F32)
  | markForRemoval

/-- The grain after one method call (the pair returned by `getStereoOutput` is dropped). -/
def Grain.call (S : StereoSmooth σ) (g : Grain σ) : GrainCall → Grain σ
  | GrainCall.getStereoOutput smooth_rate => (g.getStereoOutput S smooth_rate).2
  | GrainCall.step step_amount => g.step S step_amount
  | GrainCall.markForRemoval => g.markForRemoval

/-- The grain after a sequence of method calls. -/
def Grain.run (S : StereoSmooth σ) (g : Grain σ) (calls : List GrainCall) : Grain σ :=
  calls.foldl (Grain.call S) g

/-- Whether a call is a `getStereoOutput` call. -/
def GrainCall.isOutput : GrainCall → Bool
  | GrainCall.getStereoOutput _ => true
  | _ => false

/-- Number of `getStereoOutput` calls in a sequence of calls. -/
def outputCalls (calls : List GrainCall) : Nat := calls.countP GrainCall.isOutput

/-- The value of `removal_smoothing_ramp` after `k` increments from `0.0f`:
the binary32 sum `0.01f + ... + 0.01f`. -/
def rampAfter : Nat → F32
  | 0 => F32.zero
  | k + 1 => F32.add (rampAfter k) REMOVAL_RAMP_ACCUMULATOR

/-- The factor `1.0f - removal_smoothing_ramp` that the `k`-th fading call of
`getStereoOutput` applies to both channels. -/
def fadeFactor (k : Nat) : F32 := F32.sub F32.one (rampAfter k)

/-- Progress of the fade of a grain marked at ramp `0.0f`, after `k` calls of
`getStereoOutput`: the ramp has been incremented `min k 101` times and the
grain is retired from the 101st call on. -/
def Grain.Fading (k : Nat) (g : Grain σ) : Prop :=
  g.marked_for_removal = true ∧
    g.removal_smoothing_ramp = rampAfter (min k 101) ∧
    g.erase_me = decide (101 ≤ k)

/-- The smoothed pair that `getStereoOutput(smooth_rate)` obtains from the
filter before any attenuation. -/
def Grain.smoothed (S : StereoSmooth σ) (g : Grain σ) (smooth_rate : F32) : F32 × F32 :=
  (S.process g.loop_smooth
    (g.sample_ptr.leftPlayBuffer.getD g.readIndex F32.zero)
    (g.sample_ptr.rightPlayBuffer.getD g.readIndex F32.zero) smooth_rate).1

/-- The engine after successive `process` calls, one per pair
`(smooth_rate, step_amount)`. -/
def GrainEngine.processMany (S : StereoSmooth σ) (eng : GrainEngine σ) :
    List (F32 × F32) → GrainEngine σ
  | [] => eng
  | a :: rest => GrainEngine.processMany S (eng.process S a.1 a.2).2 rest

/-- A freshly created grain at the start of `Sample.unit` with
`playback_length = 1.0f`, using the passthrough filter. -/
def Grain.demo : Grain Unit :=
  Grain.fresh StereoSmooth.passthrough F32.zero F32.one Sample.unit

/-- The engine holding the single grain `Grain.demo`, marked for removal. -/
def GrainEngine.demoMarked : GrainEngine Unit :=
  (GrainEngine.empty.add StereoSmooth.passthrough F32.zero F32.one Sample.unit).markAllForRemoval

/-- Whether a float is a number other than an infinity or NaN. -/
def F32.isFinite : F32 → Bool
  | F32.finite _ _ => true
  | _ => false

/-- The bound `0 <= playback_position < playback_length` (C++ comparisons). -/
def Grain.InRange (g : Grain σ) : Prop :=
  F32.le F32.zero g.playback_position = true ∧
    F32.lt g.playback_position g.playback_length = true

/-- Every `step` call of the sequence, made on the grain as it is by then,
has a `step_amount >= 0` and a finite sum `playback_position + step_amount`. -/
def Grain.StepsFinite (S : StereoSmooth σ) : Grain σ → List GrainCall → Prop
  | _, [] => True
  | g, GrainCall.step step_amount :: rest =>
      (F32.le F32.zero step_amount = true ∧
        (F32.add g.playback_position step_amount).isFinite = true) ∧
      Grain.StepsFinite S (g.step S step_amount) rest
  | g, c :: rest => Grain.StepsFinite S (Grain.call S g c) rest

/-- The largest finite float, `FLT_MAX = (2 ^ 24 - 1) * 2 ^ 104`. -/
def F32.max : F32 := F32.finite 16777215 104

/-- The float `4294967296.0f = 2 ^ 32`, the least value beyond the range of
`unsigned int`. -/
def F32.two32 : F32 := F32.finite 8388608 9

/-- A three-frame sample holding `1.0f` on both channels. -/
def Sample.three : Sample :=
  { leftPlayBuffer := [F32.one, F32.one, F32.one]
    rightPlayBuffer := [F32.one, F32.one, F32.one]
    total_sample_count := 3 }

/-- State of a never-marked grain created with the integer start position `s`
and the integer length `n` on the sample `smp`, after `k` steps of `1.0f`:
its cursor is at the integer `k mod n`. -/
def Grain.PlayingAt (s n : Nat) (smp : Sample) (k : Nat) (g : Grain σ) : Prop :=
  g.start_position = F32.ofNat s ∧ g.playback_length = F32.ofNat n ∧ g.sample_ptr = smp ∧
    g.playback_position = F32.ofNat (k % n) ∧ g.erase_me = false ∧
    g.marked_for_removal = false

/-- A four-frame sample holding `1, 2, 3, 4` on both channels. -/
def Sample.four : Sample :=
  { leftPlayBuffer := [F32.ofNat 1, F32.ofNat 2, F32.ofNat 3, F32.ofNat 4]
    rightPlayBuffer := [F32.ofNat 1, F32.ofNat 2, F32.ofNat 3, F32.ofNat 4]
    total_sample_count := 4 }

/-- A retired grain: the example grain with both flags set and the ramp at its
final value. -/
def Grain.demoRetired : Grain Unit :=
  { Grain.demo with
    removal_smoothing_ramp := F32.finite 8472489 (-23)
    marked_for_removal := true
    erase_me := true }

/-- The float `8589934592.0f = 2 ^ 33`. -/
def F32.two33 : F32 := F32.finite 8388608 10

/-- The states a grain created by `add` goes through: not marked, with the ramp
at `0.0f` and not retired, or fading (`Grain.Fading`). -/
def Grain.Lifecycle (g : Grain σ) : Prop :=
  (g.marked_for_removal = false ∧ g.removal_smoothing_ramp = F32.zero ∧ g.erase_me = false) ∨
    ∃ k, g.Fading k

/-- The three fields of a grain fixed at creation: `start_position`,
`playback_length` and the sample reference. -/
def Grain.config (g : Grain σ) : F32 × F32 × Sample :=
  (g.start_position, g.playback_length, g.sample_ptr)

/-- A grain after successive `process` calls have visited it, one per pair
`(smooth_rate, step_amount)`. -/
def Grain.visits (S : StereoSmooth σ) (g : Grain σ) : List (F32 × F32) → Grain σ
  | [] => g
  | a :: rest => Grain.visits S (Grain.visit S a.1 a.2 g) rest

/-- A playing grain: not marked, the ramp at `0.0f`, not retired. -/
def Grain.Playing (g : Grain σ) : Prop :=
  g.marked_for_removal = false ∧ g.removal_smoothing_ramp = F32.zero ∧ g.erase_me = false

instance (g : Grain σ) : Decidable g.Playing := by
  unfold Grain.Playing; infer_instance

/-- The engine holding two fresh example grains. -/
def GrainEngine.demoTwo : GrainEngine Unit :=
  (GrainEngine.empty.add StereoSmooth.passthrough F32.zero F32.one Sample.unit).add
    StereoSmooth.passthrough F32.zero F32.one Sample.unit

/-! Timeline sequencer (`src/TransitionSequencer.cpp`) -/

/-- The `Vec` of the Rack SDK as far as the sequencer uses it: two floats. -/
structure Vec where
  x : F32
  y : F32

/-- The struct `TimelineSequencerViewport`. -/
structure TimelineSequencerViewport where
  width : F32
  height : F32
  offset : F32

/-- The struct `TimelineSequencer`: the points in vector order and the
viewport.  The vector is taken to hold fewer than `2 ^ 32` points, so that an
index fits the `unsigned int` in which `getPointIndexesWithinViewport`
returns it. -/
structure TimelineSequencer where
  points : List Vec
  viewport : TimelineSequencerViewport

/-- The test of the loop body:
`points[i].x >= viewport.offset && points[i].x <= viewport.offset + viewport.width`. -/
def TimelineSequencer.withinViewport (ts : TimelineSequencer) (p : Vec) : Bool :=
  F32.ge p.x ts.viewport.offset && F32.le p.x (F32.add ts.viewport.offset ts.viewport.width)

/-- The loop of `getPointIndexesWithinViewport` from index `i` on, over the
state `(begin_index, end_index, begin_index_located)`. -/
def TimelineSequencer.scanPoints (ts : TimelineSequencer) :
    List Vec → Nat → Nat × Nat × Bool → Nat × Nat × Bool
  | [], _, st => st
  | p :: rest, i, st =>
      if ts.withinViewport p = true then
        TimelineSequencer.scanPoints ts rest (i + 1) (if st.2.2 = false then i else st.1, i, true)
      else TimelineSequencer.scanPoints ts rest (i + 1) st

/-- The method `TimelineSequencer::getPointIndexesWithinViewport()`. -/
def TimelineSequencer.getPointIndexesWithinViewport (ts : TimelineSequencer) : Nat × Nat :=
  ((ts.scanPoints ts.points 0 (0, 0, false)).1, (ts.scanPoints ts.points 0 (0, 0, false)).2.1)

/-- The sequencer as its constructor leaves it: the points `(100, 100.5)`,
`(220, 120)`, `(300, 60)` and the default viewport of width `486`, height
`206` and offset `0`. -/
def TimelineSequencer.initial : TimelineSequencer :=
  { points := [{ x := F32.ofNat 100, y := F32.round 201 (-1) },
               { x := F32.ofNat 220, y := F32.ofNat 120 },
               { x := F32.ofNat 300, y := F32.ofNat 60 }]
    viewport := { width := F32.ofNat 486, height := F32.ofNat 206, offset := F32.zero } }

theorem Grain.step_erase_me (S : StereoSmooth σ) (g : Grain σ) (s : F32) :
    (g.step S s).erase_me = g.erase_me := by
  unfold Grain.step
  dsimp only
  split
  · split <;> rfl
  · rfl

theorem Grain.getStereoOutput_of_erased (S : StereoSmooth σ) (g : Grain σ) (r : F32)
    (h : g.erase_me = true) : g.getStereoOutput S r = ((F32.zero, F32.zero), g) := by
  unfold Grain.getStereoOutput
  simp [h]

theorem GrainEngine.processLoop_grains (S : StereoSmooth σ) (r s : F32) (q : List (Grain σ))
    (mix : F32 × F32) :
    (GrainEngine.processLoop S r s q mix).2 = q.map (Grain.visit S r s) := by
  induction q generalizing mix with
  | nil => rfl
  | cons g gs ih =>
    unfold GrainEngine.processLoop
    by_cases h : g.erase_me = true
    · simp [h, ih, Grain.visit]
    · simp [h, ih, Grain.visit]

theorem GrainEngine.process_grains (S : StereoSmooth σ) (eng : GrainEngine σ) (r s : F32) :
    (eng.process S r s).2.grain_queue =
      (eng.grain_queue.map (Grain.visit S r s)).filter (fun g => !g.erase_me) := by
  simp [GrainEngine.process, GrainEngine.processLoop_grains]

theorem GrainEngine.markLoop_getElem? (q : List (Grain σ)) (n i : Nat) :
    (GrainEngine.markLoop q n)[i]? = if i < n then q[i]?.map Grain.markForRemoval else q[i]? := by
  induction n with
  | zero => simp [GrainEngine.markLoop]
  | succ n ih =>
    simp only [GrainEngine.markLoop, List.getElem?_modify, ih]
    by_cases h1 : n = i
    · subst h1
      simp
    · by_cases h2 : i < n
      · have : i < n + 1 := by omega
        simp [h1, h2, this]
      · have : ¬ i < n + 1 := by omega
        simp [h1, h2, this]

theorem GrainEngine.markLoop_eq (q : List (Grain σ)) (n : Nat) :
    GrainEngine.markLoop q n = (q.take n).map Grain.markForRemoval ++ q.drop n := by
  apply List.ext_getElem?
  intro i
  rw [GrainEngine.markLoop_getElem?]
  by_cases h : i < n
  · by_cases h2 : i < q.length
    · rw [List.getElem?_append_left (by simp; omega)]
      simp [h, List.getElem?_take]
    · have h3 : q.length ≤ i := by omega
      rw [List.getElem?_eq_none h3]
      simp [h]
      omega
  · have h3 : n ≤ i := by omega
    by_cases h2 : n ≤ q.length
    · rw [List.getElem?_append_right (by simp; omega)]
      simp [h, h2]
      congr 1
      omega
    · have : q.length ≤ i := by omega
      simp [h, List.getElem?_eq_none this]
      omega

/-! Lemmas on binary32 rounding -/

theorem bitLenAux_zero (f : Nat) : bitLenAux f 0 = 0 := by
  cases f <;> simp [bitLenAux]

theorem bitLenAux_spec (f : Nat) : ∀ n, n ≤ f →
    n < 2 ^ bitLenAux f n ∧ (n ≠ 0 → 2 ^ bitLenAux f n ≤ 2 * n) := by
  induction f with
  | zero =>
    intro n hn
    have : n = 0 := by omega
    subst this
    simp [bitLenAux]
  | succ f ih =>
    intro n hn
    by_cases h0 : n = 0
    · subst h0
      simp [bitLenAux]
    · have hle : n / 2 ≤ f := by omega
      obtain ⟨h1, h2⟩ := ih (n / 2) hle
      simp only [bitLenAux, h0, if_false, pow_succ]
      refine ⟨by omega, fun _ => ?_⟩
      by_cases h3 : n / 2 = 0
      · rw [h3, bitLenAux_zero]
        simp
        omega
      · have := h2 h3
        omega

theorem lt_two_pow_bitLen (n : Nat) : n < 2 ^ bitLen n :=
  (bitLenAux_spec n n (Nat.le_refl n)).1

theorem two_pow_bitLen_le (n : Nat) (h : n ≠ 0) : 2 ^ bitLen n ≤ 2 * n :=
  (bitLenAux_spec n n (Nat.le_refl n)).2 h

theorem bitLen_unique (n k : Nat) (h0 : n ≠ 0) (h1 : n < 2 ^ k) (h2 : 2 ^ k ≤ 2 * n) :
    bitLen n = k := by
  have a1 := lt_two_pow_bitLen n
  have a2 := two_pow_bitLen_le n h0
  have b1 : 2 ^ bitLen n < 2 ^ (k + 1) := by rw [pow_succ]; omega
  have b2 : 2 ^ k < 2 ^ (bitLen n + 1) := by rw [pow_succ]; omega
  have c1 := (Nat.pow_lt_pow_iff_right (by norm_num : 1 < 2)).1 b1
  have c2 := (Nat.pow_lt_pow_iff_right (by norm_num : 1 < 2)).1 b2
  omega

theorem bitLen_mul_two_pow (n k : Nat) (h0 : n ≠ 0) : bitLen (n * 2 ^ k) = bitLen n + k := by
  have hk : 0 < 2 ^ k := Nat.two_pow_pos k
  apply bitLen_unique
  · exact Nat.mul_ne_zero h0 (by omega)
  · rw [pow_add]
    exact Nat.mul_lt_mul_of_pos_right (lt_two_pow_bitLen n) hk
  · rw [pow_add]
    calc 2 ^ bitLen n * 2 ^ k ≤ (2 * n) * 2 ^ k :=
          Nat.mul_le_mul_right _ (two_pow_bitLen_le n h0)
      _ = 2 * (n * 2 ^ k) := by ring

theorem bitLen_le_iff (n k : Nat) : bitLen n ≤ k ↔ n < 2 ^ k := by
  constructor
  · intro h
    exact lt_of_lt_of_le (lt_two_pow_bitLen n) (Nat.pow_le_pow_right (by norm_num) h)
  · intro h
    by_cases h0 : n = 0
    · subst h0
      simp [bitLen, bitLenAux]
    · have a2 := two_pow_bitLen_le n h0
      have b1 : 2 ^ bitLen n < 2 ^ (k + 1) := by rw [pow_succ]; omega
      have c1 := (Nat.pow_lt_pow_iff_right (by norm_num : 1 < 2)).1 b1
      omega

namespace F32

theorem targetExp_shift (b k : Nat) (e : Int) :
    targetExp (b + k) (e - k) = targetExp b e := by
  unfold targetExp
  push_cast
  have h : e - (k : Int) + ((b : Int) + (k : Int)) - 24 = e + (b : Int) - 24 := by ring
  rw [h]

theorem roundMant_scale (n k : Nat) (e t : Int) :
    roundMant (n * 2 ^ k) (e - k) t = roundMant n e t := by
  have hk : 0 < 2 ^ k := Nat.two_pow_pos k
  unfold roundMant
  by_cases h1 : t ≤ e - k
  · have h2 : t ≤ e := by omega
    have h3 : (e - t).toNat = k + (e - k - t).toNat := by omega
    rw [if_pos h1, if_pos h2, h3, pow_add, Nat.mul_assoc]
  · rw [if_neg h1]
    by_cases h2 : t ≤ e
    · rw [if_pos h2]
      obtain ⟨s, hs⟩ : ∃ s, s = (t - (e - k)).toNat := ⟨_, rfl⟩
      obtain ⟨d, hd⟩ : ∃ d, d = (e - t).toNat := ⟨_, rfl⟩
      have hsk : k = d + s := by omega
      have hs1 : 1 ≤ s := by omega
      have hpos : 0 < 2 ^ s := Nat.two_pow_pos s
      have hhalf : 0 < 2 ^ (s - 1) := Nat.two_pow_pos _
      rw [← hs, ← hd]
      have hmul : n * 2 ^ k = (n * 2 ^ d) * 2 ^ s := by rw [hsk, pow_add, Nat.mul_assoc]
      have hq : n * 2 ^ k / 2 ^ s = n * 2 ^ d := by
        rw [hmul]; exact Nat.mul_div_cancel _ hpos
      have hr : n * 2 ^ k % 2 ^ s = 0 := by
        rw [hmul]; exact Nat.mul_mod_left _ _
      simp only [hq, hr]
      rw [if_neg]
      intro h
      rcases h with h | ⟨h, _⟩ <;> omega
    · rw [if_neg h2]
      obtain ⟨s, hs⟩ : ∃ s, s = (t - e).toNat := ⟨_, rfl⟩
      have hs' : (t - (e - k)).toNat = s + k := by omega
      have hs1 : 1 ≤ s := by omega
      rw [hs', ← hs]
      have hq : n * 2 ^ k / 2 ^ (s + k) = n / 2 ^ s := by
        rw [pow_add]; exact Nat.mul_div_mul_right _ _ hk
      have hr : n * 2 ^ k % 2 ^ (s + k) = n % 2 ^ s * 2 ^ k := by
        rw [pow_add]; exact Nat.mul_mod_mul_right _ _ _
      have hh : 2 ^ (s + k - 1) = 2 ^ (s - 1) * 2 ^ k := by
        rw [← pow_add]; congr 1; omega
      simp only [hq, hr, hh]
      have c1 : (2 ^ (s - 1) * 2 ^ k < n % 2 ^ s * 2 ^ k) ↔ (2 ^ (s - 1) < n % 2 ^ s) :=
        Nat.mul_lt_mul_right hk
      have c2 : (n % 2 ^ s * 2 ^ k = 2 ^ (s - 1) * 2 ^ k) ↔ (n % 2 ^ s = 2 ^ (s - 1)) :=
        Nat.mul_left_inj (by omega)
      simp only [c1, c2]

theorem natAbs_shl (m : Int) (k : Nat) : (shl m k).natAbs = m.natAbs * 2 ^ k := by
  unfold shl
  rw [Int.natAbs_mul, Int.natAbs_ofNat]

theorem shl_neg_iff (m : Int) (k : Nat) : shl m k < 0 ↔ m < 0 := by
  unfold shl
  have hk : (0 : Int) < ((2 ^ k : Nat) : Int) := by exact_mod_cast Nat.two_pow_pos k
  constructor
  · intro h
    by_contra hm
    have : 0 ≤ m * ((2 ^ k : Nat) : Int) := Int.mul_nonneg (by omega) (le_of_lt hk)
    omega
  · intro h
    exact Int.mul_neg_of_neg_of_pos h hk

/-- Rounding depends on the value only: `(m * 2 ^ k) * 2 ^ (e - k)` rounds like `m * 2 ^ e`. -/
theorem round_scale (m : Int) (k : Nat) (e : Int) :
    round (shl m k) (e - k) = round m e := by
  have hk : 0 < 2 ^ k := Nat.two_pow_pos k
  unfold round
  simp only [natAbs_shl]
  by_cases h0 : m.natAbs = 0
  · simp [h0]
  · have h0' : m.natAbs * 2 ^ k ≠ 0 := Nat.mul_ne_zero h0 (by omega)
    rw [if_neg h0, if_neg h0', bitLen_mul_two_pow _ _ h0, targetExp_shift, roundMant_scale]
    simp only [shl_neg_iff]

end F32

namespace F32

theorem roundMant_self (n : Nat) (t : Int) : roundMant n t t = n := by
  unfold roundMant
  simp

theorem signed_natAbs (m : Int) : (if m < 0 then -((m.natAbs : Nat) : Int) else (m.natAbs : Int)) = m := by
  split <;> omega

theorem natAbs_signed (m : Int) (n : Nat) :
    (if m < 0 then -(n : Int) else (n : Int)).natAbs = n := by
  split <;> simp

theorem round_canon (m : Int) (t : Int) (h : CanonMant m.natAbs t) : round m t = finite m t := by
  obtain ⟨h1, h2, h3, h4, h5⟩ := h
  have ht : targetExp (bitLen m.natAbs) t = t := by
    unfold targetExp
    rcases h5 with h5 | h5
    · have : bitLen m.natAbs = 24 := bitLen_unique _ _ (by omega) (by norm_num; omega) (by norm_num; omega)
      rw [this]
      split <;> omega
    · by_cases h6 : 8388608 ≤ m.natAbs
      · have : bitLen m.natAbs = 24 := bitLen_unique _ _ (by omega) (by norm_num; omega) (by norm_num; omega)
        rw [this]
        split <;> omega
      · have : bitLen m.natAbs ≤ 23 := (bitLen_le_iff _ _).2 (by norm_num; omega)
        split <;> omega
  have hn0 : ¬ m.natAbs = 0 := by omega
  have hn24 : ¬ m.natAbs = 16777216 := by omega
  have h104 : ¬ (104 < t) := by omega
  simp only [round, ht, roundMant_self, hn0, hn24, h104, if_false, signed_natAbs]

theorem roundMant_bounds (n : Nat) (e : Int) (h0 : n ≠ 0) :
    roundMant n e (targetExp (bitLen n) e) ≤ 16777216 ∧
    (-149 ≤ e + bitLen n - 24 → 8388608 ≤ roundMant n e (targetExp (bitLen n) e)) ∧
    (e + bitLen n - 24 < -149 → roundMant n e (targetExp (bitLen n) e) ≤ 8388608) := by
  have hb1 := lt_two_pow_bitLen n
  have hb2 := two_pow_bitLen_le n h0
  generalize bitLen n = b at hb1 hb2 ⊢
  obtain ⟨t, ht⟩ : ∃ t, t = targetExp b e := ⟨_, rfl⟩
  have ht1 : e + b - 24 ≤ t := by rw [ht]; unfold targetExp; split <;> omega
  have ht2 : -149 ≤ e + b - 24 → t = e + b - 24 := by
    intro h; rw [ht]; unfold targetExp; split <;> omega
  have ht3 : e + b - 24 < -149 → t = -149 := by
    intro h; rw [ht]; unfold targetExp; split <;> omega
  rw [← ht]
  unfold roundMant
  by_cases hte : t ≤ e
  · rw [if_pos hte]
    obtain ⟨d, hd⟩ : ∃ d, d = (e - t).toNat := ⟨_, rfl⟩
    rw [← hd]
    have hbd : b + d ≤ 24 := by omega
    have hd0 : 0 < 2 ^ d := Nat.two_pow_pos d
    have hlt : n * 2 ^ d < 2 ^ (b + d) := by
      rw [pow_add]; exact Nat.mul_lt_mul_of_pos_right hb1 hd0
    have hle : 2 ^ (b + d) ≤ 2 ^ 24 := Nat.pow_le_pow_right (by norm_num) hbd
    have h24 : (2 : Nat) ^ 24 = 16777216 := by norm_num
    refine ⟨by omega, ?_, ?_⟩
    · intro h
      have hbd' : b + d = 24 := by have := ht2 h; omega
      have : 2 ^ (b + d) ≤ 2 * (n * 2 ^ d) := by
        rw [pow_add]
        calc 2 ^ b * 2 ^ d ≤ (2 * n) * 2 ^ d := Nat.mul_le_mul_right _ hb2
          _ = 2 * (n * 2 ^ d) := by ring
      rw [hbd', h24] at this
      omega
    · intro h
      have : t = -149 := ht3 h
      have hbd' : b + d ≤ 23 := by omega
      have hle' : 2 ^ (b + d) ≤ 2 ^ 23 := Nat.pow_le_pow_right (by norm_num) hbd'
      have h23 : (2 : Nat) ^ 23 = 8388608 := by norm_num
      omega
  · rw [if_neg hte]
    dsimp only
    obtain ⟨s, hs⟩ : ∃ s, s = (t - e).toNat := ⟨_, rfl⟩
    rw [← hs]
    have hs0 : 0 < 2 ^ s := Nat.two_pow_pos s
    have hq_le : ∀ c, b ≤ c + s → n / 2 ^ s < 2 ^ c := by
      intro c hc
      rw [Nat.div_lt_iff_lt_mul hs0, ← pow_add]
      exact lt_of_lt_of_le hb1 (Nat.pow_le_pow_right (by norm_num) hc)
    have hstep : (if 2 ^ (s - 1) < n % 2 ^ s ∨ n % 2 ^ s = 2 ^ (s - 1) ∧ n / 2 ^ s % 2 = 1
        then n / 2 ^ s + 1 else n / 2 ^ s) ≤ n / 2 ^ s + 1 := by split <;> omega
    have hstep' : n / 2 ^ s ≤ (if 2 ^ (s - 1) < n % 2 ^ s ∨ n % 2 ^ s = 2 ^ (s - 1) ∧ n / 2 ^ s % 2 = 1
        then n / 2 ^ s + 1 else n / 2 ^ s) := by split <;> omega
    have h24 : (2 : Nat) ^ 24 = 16777216 := by norm_num
    have h23 : (2 : Nat) ^ 23 = 8388608 := by norm_num
    refine ⟨?_, ?_, ?_⟩
    · have := hq_le 24 (by omega)
      omega
    · intro h
      have hbs : b = 24 + s := by have := ht2 h; omega
      have : 2 ^ 23 * 2 ^ s ≤ n := by
        have h2 : 2 ^ b = 2 * (2 ^ 23 * 2 ^ s) := by
          rw [hbs, pow_add]; norm_num; ring
        omega
      have hq : 2 ^ 23 ≤ n / 2 ^ s := (Nat.le_div_iff_mul_le hs0).2 this
      omega
    · intro h
      have : t = -149 := ht3 h
      have := hq_le 23 (by omega)
      omega

theorem round_valid (m e : Int) : Valid (round m e) := by
  by_cases h0 : m.natAbs = 0
  · simp [round, h0, zero, Valid]
  · obtain ⟨b1, b2, b3⟩ := roundMant_bounds m.natAbs e h0
    have ht0 : -149 ≤ targetExp (bitLen m.natAbs) e := by
      unfold targetExp; split <;> omega
    have ht3 : e + bitLen m.natAbs - 24 < -149 → targetExp (bitLen m.natAbs) e = -149 := by
      intro h; unfold targetExp; split <;> omega
    simp only [round, if_neg h0]
    generalize roundMant m.natAbs e (targetExp (bitLen m.natAbs) e) = n1 at *
    generalize targetExp (bitLen m.natAbs) e = t at *
    by_cases h24 : n1 = 16777216
    · simp only [h24, if_true]
      split
      · omega
      · split
        · trivial
        · unfold Valid CanonMant
          right
          rw [natAbs_signed]
          omega
    · simp only [if_neg h24]
      split
      · simp [zero, Valid]
      · split
        · trivial
        · unfold Valid CanonMant
          right
          have hor : 8388608 ≤ n1 ∨ t = -149 := by
            by_cases hc : -149 ≤ e + bitLen m.natAbs - 24
            · exact Or.inl (b2 hc)
            · exact Or.inr (ht3 (by omega))
          rw [natAbs_signed]
          omega

end F32

namespace F32

theorem shl_zero_left (k : Nat) : shl 0 k = 0 := by simp [shl]

theorem shl_zero_right (m : Int) : shl m 0 = m := by simp [shl]

theorem add_valid (a b : F32) : Valid (add a b) := by
  cases a <;> cases b <;> simp only [add] <;> first
    | exact round_valid _ _
    | trivial
    | (split <;> trivial)

/-- Adding `0.0f` to a binary32 number gives that number. -/
theorem add_zero_of_valid (x : F32) (h : Valid x) : add x zero = x := by
  cases x with
  | nan => rfl
  | inf s => rfl
  | finite m e =>
    simp only [add, zero, shl_zero_left, Int.add_zero]
    rcases h with ⟨hm, he⟩ | hc
    · subst hm; subst he
      simp [shl_zero_left, round, zero]
    · by_cases he : e ≤ 0
      · simp only [if_pos he, Int.sub_self, Int.toNat_zero, shl_zero_right]
        exact round_canon m e hc
      · simp only [if_neg he, Int.sub_zero]
        have h1 : round (shl m e.toNat) 0 = round (shl m e.toNat) (e - (e.toNat : Nat)) := by
          congr 1; omega
        rw [h1, round_scale]
        exact round_canon m e hc

theorem zero_valid : Valid zero := by decide

end F32

theorem GrainEngine.processLoop_mix (S : StereoSmooth σ) (r s : F32) (q : List (Grain σ)) :
    ∀ mix : F32 × F32, F32.Valid mix.1 → F32.Valid mix.2 →
    (GrainEngine.processLoop S r s q mix).1 =
      ((q.map fun g => (g.getStereoOutput S r).1.1).foldl F32.add mix.1,
       (q.map fun g => (g.getStereoOutput S r).1.2).foldl F32.add mix.2) := by
  induction q with
  | nil => intro mix _ _; rfl
  | cons g gs ih =>
    intro mix h1 h2
    unfold GrainEngine.processLoop
    by_cases h : g.erase_me = true
    · simp only [h, bne_self_eq_false, Bool.false_eq_true, if_false, List.map_cons, List.foldl_cons]
      rw [ih mix h1 h2, Grain.getStereoOutput_of_erased S g r h]
      simp only [F32.add_zero_of_valid _ h1, F32.add_zero_of_valid _ h2]
    · have hb : (g.erase_me != true) = true := by simpa using h
      simp only [hb, if_true, List.map_cons, List.foldl_cons]
      rw [ih _ (F32.add_valid _ _) (F32.add_valid _ _)]

/-- Claim C1. `process` returns the pair of plain left-to-right float sums of the
left and of the right outputs that `getStereoOutput(smooth_rate)` gives for
the held grains in collection order, each read on the grain as it is before
its `step(step_amount)`; the sums are not divided by the number of grains. -/
theorem C1_process_returns_plain_sum (S : StereoSmooth σ) (eng : GrainEngine σ)
    (smooth_rate step_amount : F32) :
    (eng.process S smooth_rate step_amount).1 =
      (F32.sum (eng.grain_queue.map fun g => (g.getStereoOutput S smooth_rate).1.1),
       F32.sum (eng.grain_queue.map fun g => (g.getStereoOutput S smooth_rate).1.2)) := by
  unfold GrainEngine.process F32.sum
  exact GrainEngine.processLoop_mix S smooth_rate step_amount eng.grain_queue
    (F32.zero, F32.zero) F32.zero_valid F32.zero_valid

/-- Claim C2. After `process` the grain sequence is exactly the subsequence of the
read-and-stepped grains whose `erase_me` flag is false, in their original
order: a visited grain is dropped if and only if its `erase_me` flag is set
after the visit, and for a grain that was not retired before the call this
means that the flag became true during the call (in `getStereoOutput`;
`step` does not touch it). -/
theorem C2_process_keeps_unretired_in_order (S : StereoSmooth σ) (eng : GrainEngine σ)
    (smooth_rate step_amount : F32) :
    (eng.process S smooth_rate step_amount).2.grain_queue =
        (eng.grain_queue.map (Grain.visit S smooth_rate step_amount)).filter
          (fun g => !g.erase_me) ∧
      List.Sublist (eng.process S smooth_rate step_amount).2.grain_queue
        (eng.grain_queue.map (Grain.visit S smooth_rate step_amount)) ∧
      (∀ g ∈ eng.grain_queue,
        (Grain.visit S smooth_rate step_amount g ∉
            (eng.process S smooth_rate step_amount).2.grain_queue ↔
          (Grain.visit S smooth_rate step_amount g).erase_me = true)) ∧
      (∀ g ∈ eng.grain_queue, g.erase_me = false →
        (Grain.visit S smooth_rate step_amount g).erase_me =
          (g.getStereoOutput S smooth_rate).2.erase_me) := by
  rw [GrainEngine.process_grains]
  refine ⟨rfl, List.filter_sublist _, ?_, ?_⟩
  · intro g hg
    simp only [List.mem_filter, List.mem_map, not_and, Bool.not_eq_true', Bool.not_eq_false]
    constructor
    · intro h
      have := h ⟨g, hg, rfl⟩
      simpa using this
    · intro h _
      simp [h]
  · intro g _ hf
    simp [Grain.visit, hf, Grain.step_erase_me]

/-! Engine invariant and marking -/

theorem Grain.markForRemoval_erase_me (g : Grain σ) :
    g.markForRemoval.erase_me = g.erase_me := by
  unfold Grain.markForRemoval
  split <;> rfl

theorem Grain.markForRemoval_eq (g : Grain σ) :
    g.markForRemoval = { g with marked_for_removal := true } := by
  unfold Grain.markForRemoval
  split
  · rfl
  · next h =>
    have h' : g.marked_for_removal = true := by simpa using h
    cases g
    simp_all

theorem GrainEngine.markOldestForRemoval_queue (eng : GrainEngine σ) (nth : Nat) :
    (eng.markOldestForRemoval nth).grain_queue =
      (eng.grain_queue.take nth).map Grain.markForRemoval ++ eng.grain_queue.drop nth := by
  unfold GrainEngine.markOldestForRemoval
  split
  · next h =>
    simp [GrainEngine.markAllForRemoval, List.take_of_length_le h, List.drop_of_length_le h]
  · exact GrainEngine.markLoop_eq _ _

theorem GrainEngine.NoRetired_of_reachable (S : StereoSmooth σ) (eng : GrainEngine σ)
    (h : GrainEngine.Reachable S eng) : ∀ g ∈ eng.grain_queue, g.erase_me = false := by
  induction h with
  | empty => intro g hg; simp [GrainEngine.empty] at hg
  | add _ sp pl smp ih =>
    intro g hg
    simp only [GrainEngine.add, List.mem_append, List.mem_singleton] at hg
    rcases hg with hg | hg
    · exact ih g hg
    · subst hg; rfl
  | markAllForRemoval _ ih =>
    intro g hg
    simp only [GrainEngine.markAllForRemoval, List.mem_map] at hg
    obtain ⟨a, ha, rfl⟩ := hg
    rw [Grain.markForRemoval_erase_me]
    exact ih a ha
  | markOldestForRemoval _ nth ih =>
    intro g hg
    rw [GrainEngine.markOldestForRemoval_queue] at hg
    simp only [List.mem_append, List.mem_map] at hg
    rcases hg with ⟨a, ha, rfl⟩ | hg
    · rw [Grain.markForRemoval_erase_me]
      exact ih a (List.mem_of_mem_take ha)
    · exact ih g (List.mem_of_mem_drop hg)
  | process _ r s _ =>
    intro g hg
    rw [GrainEngine.process_grains] at hg
    simpa using (List.mem_filter.1 hg).2

/-- Claim C8. In every engine state reachable from the empty engine by `add`,
`markAllForRemoval`, `markOldestForRemoval` and `process`, no held grain has
`erase_me = true`; and a grain whose `erase_me` flag is set by a `process`
call is not held any more when that call returns. -/
theorem C8_no_retired_grain_is_held (S : StereoSmooth σ) (eng : GrainEngine σ)
    (h : GrainEngine.Reachable S eng) :
    (∀ g ∈ eng.grain_queue, g.erase_me = false) ∧
      ∀ (smooth_rate step_amount : F32), ∀ g ∈ eng.grain_queue,
        (Grain.visit S smooth_rate step_amount g).erase_me = true →
          Grain.visit S smooth_rate step_amount g ∉
            (eng.process S smooth_rate step_amount).2.grain_queue := by
  refine ⟨GrainEngine.NoRetired_of_reachable S eng h, ?_⟩
  intro r s g _ hv hmem
  rw [GrainEngine.process_grains] at hmem
  have := (List.mem_filter.1 hmem).2
  simp [hv] at this

/-- Claim C9. `markOldestForRemoval(nth)` marks exactly the first `min(nth, size())`
grains in collection order (each one changed in its `marked_for_removal`
field only) and leaves every grain at an index `≥ nth`, the order and the
size as they were; with `nth ≥ size()` the result is that of
`markAllForRemoval()`. -/
theorem C9_markOldestForRemoval_frame (eng : GrainEngine σ) (nth : Nat) :
    (eng.markOldestForRemoval nth).grain_queue =
        (eng.grain_queue.take (min nth eng.size)).map
          (fun g => { g with marked_for_removal := true }) ++ eng.grain_queue.drop nth ∧
      (eng.markOldestForRemoval nth).size = eng.size ∧
      (∀ i, nth ≤ i → (eng.markOldestForRemoval nth).grain_queue[i]? = eng.grain_queue[i]?) ∧
      (∀ i, i < min nth eng.size →
        (eng.markOldestForRemoval nth).grain_queue[i]? =
          eng.grain_queue[i]?.map (fun g => { g with marked_for_removal := true })) ∧
      (eng.size ≤ nth → eng.markOldestForRemoval nth = eng.markAllForRemoval) := by
  have hq := GrainEngine.markOldestForRemoval_queue eng nth
  have hfun : (Grain.markForRemoval : Grain σ → Grain σ) =
      fun g => { g with marked_for_removal := true } := by
    funext g; exact Grain.markForRemoval_eq g
  have htake : eng.grain_queue.take (min nth eng.size) = eng.grain_queue.take nth := by
    unfold GrainEngine.size
    rw [List.take_eq_take]
    omega
  refine ⟨?_, ?_, ?_, ?_, ?_⟩
  · rw [hq, htake, hfun]
  · unfold GrainEngine.size
    rw [hq]
    simp only [List.length_append, List.length_map, List.length_take, List.length_drop]
    omega
  · intro i hi
    rw [hq]
    by_cases hn : nth ≤ eng.grain_queue.length
    · rw [List.getElem?_append_right (by simp; omega)]
      simp only [List.length_map, List.length_take, List.getElem?_drop]
      congr 1
      omega
    · have : eng.grain_queue.length ≤ i := by omega
      rw [List.getElem?_eq_none this, List.getElem?_eq_none]
      simp
      omega
  · intro i hi
    unfold GrainEngine.size at hi
    rw [hq, hfun, List.getElem?_append_left (by simp; omega)]
    simp only [List.getElem?_map]
    rw [List.getElem?_take_of_lt (by omega)]
  · intro h
    unfold GrainEngine.markOldestForRemoval
    unfold GrainEngine.size at h
    simp [h]

/-- Witness for C8: the engine obtained by adding one grain, marking it and
processing once is reachable, and the invariant holds of it. -/
theorem C8_no_retired_grain_is_held_witness :
    GrainEngine.Reachable StereoSmooth.passthrough
        (((GrainEngine.empty.add StereoSmooth.passthrough F32.zero F32.one
          Sample.unit).markAllForRemoval).process StereoSmooth.passthrough F32.one F32.one).2 ∧
      ((∀ g ∈ (((GrainEngine.empty.add StereoSmooth.passthrough F32.zero F32.one
          Sample.unit).markAllForRemoval).process StereoSmooth.passthrough
            F32.one F32.one).2.grain_queue, g.erase_me = false) ∧
        ∀ (smooth_rate step_amount : F32),
          ∀ g ∈ (((GrainEngine.empty.add StereoSmooth.passthrough F32.zero F32.one
            Sample.unit).markAllForRemoval).process StereoSmooth.passthrough
              F32.one F32.one).2.grain_queue,
          (Grain.visit StereoSmooth.passthrough smooth_rate step_amount g).erase_me = true →
            Grain.visit StereoSmooth.passthrough smooth_rate step_amount g ∉
              ((((GrainEngine.empty.add StereoSmooth.passthrough F32.zero F32.one
                Sample.unit).markAllForRemoval).process StereoSmooth.passthrough
                  F32.one F32.one).2.process StereoSmooth.passthrough
                    smooth_rate step_amount).2.grain_queue) :=
  ⟨((GrainEngine.Reachable.empty.add F32.zero F32.one Sample.unit).markAllForRemoval).process
      F32.one F32.one,
    C8_no_retired_grain_is_held StereoSmooth.passthrough _
      (((GrainEngine.Reachable.empty.add F32.zero F32.one Sample.unit).markAllForRemoval).process
        F32.one F32.one)⟩

/-! The removal fade -/

set_option maxRecDepth 1000000 in
/-- The binary32 partial sums of `0.01f` stay below `1.0f` for the first 100
increments; the 101st is the first that is `≥ 1.0f`. -/
theorem rampAfter_table : ∀ k, k < 101 →
    F32.lt (rampAfter k) F32.one = true ∧
      F32.ge (rampAfter (k + 1)) F32.one = decide (100 ≤ k) := by
  decide

set_option maxRecDepth 1000000 in
/-- The fade factors of the first 100 calls lie in `[0, 1]` and do not increase
from one call to the next, the 101st included. -/
theorem fadeFactor_table : ∀ k, k < 100 →
    F32.le F32.zero (fadeFactor (k + 1)) = true ∧
      F32.le (fadeFactor (k + 1)) F32.one = true ∧
      F32.le (fadeFactor (k + 2)) (fadeFactor (k + 1)) = true := by
  decide

theorem Grain.getStereoOutput_fading (S : StereoSmooth σ) (g : Grain σ) (r : F32) (k : Nat)
    (hF : g.Fading k) (hk : k < 101) :
    (g.getStereoOutput S r).1 =
        (F32.mul (g.smoothed S r).1 (fadeFactor (k + 1)),
         F32.mul (g.smoothed S r).2 (fadeFactor (k + 1))) ∧
      (g.getStereoOutput S r).2.Fading (k + 1) := by
  obtain ⟨h1, h2, h3⟩ := hF
  have hk' : min k 101 = k := by omega
  rw [hk'] at h2
  have h3' : g.erase_me = false := by rw [h3]; simp; omega
  obtain ⟨t1, t2⟩ := rampAfter_table k hk
  have hr : rampAfter (k + 1) = F32.add (rampAfter k) REMOVAL_RAMP_ACCUMULATOR := rfl
  have hk2 : min (k + 1) 101 = k + 1 := by omega
  unfold Grain.getStereoOutput Grain.Fading
  simp only [h3', h1, h2, t1, Bool.false_eq_true, if_false, Bool.and_self, if_true, ← hr, t2,
    Grain.smoothed, fadeFactor, hk2]
  refine ⟨trivial, trivial, trivial, ?_⟩
  by_cases h100 : 100 ≤ k
  · have : 101 ≤ k + 1 := by omega
    simp [h100, this]
  · have : ¬ 101 ≤ k + 1 := by omega
    simp [h100, this]

theorem Grain.getStereoOutput_retired_fading (S : StereoSmooth σ) (g : Grain σ) (r : F32)
    (k : Nat) (hF : g.Fading k) (hk : 101 ≤ k) :
    g.getStereoOutput S r = ((F32.zero, F32.zero), g) := by
  apply Grain.getStereoOutput_of_erased
  rw [hF.2.2]
  simpa using hk

theorem Grain.Fading_output (S : StereoSmooth σ) (g : Grain σ) (r : F32) (k : Nat)
    (hF : g.Fading k) : (g.getStereoOutput S r).2.Fading (k + 1) := by
  by_cases hk : k < 101
  · exact (Grain.getStereoOutput_fading S g r k hF hk).2
  · rw [Grain.getStereoOutput_retired_fading S g r k hF (by omega)]
    obtain ⟨h1, h2, h3⟩ := hF
    refine ⟨h1, ?_, ?_⟩
    · rw [h2]; congr 1; omega
    · rw [h3]; simp; omega

theorem Grain.Fading_step (S : StereoSmooth σ) (g : Grain σ) (s : F32) (k : Nat)
    (hF : g.Fading k) : (g.step S s).Fading k := by
  unfold Grain.step
  dsimp only
  split
  · split <;> exact hF
  · exact hF

theorem Grain.Fading_mark (g : Grain σ) (k : Nat) (hF : g.Fading k) :
    g.markForRemoval.Fading k := by
  rw [Grain.markForRemoval_eq]
  exact ⟨rfl, hF.2.1, hF.2.2⟩

theorem Grain.Fading_run (S : StereoSmooth σ) (calls : List GrainCall) :
    ∀ (g : Grain σ) (k : Nat), g.Fading k →
      (Grain.run S g calls).Fading (k + outputCalls calls) := by
  induction calls with
  | nil => intro g k h; simpa [Grain.run, outputCalls] using h
  | cons c cs ih =>
    intro g k h
    have hrun : Grain.run S g (c :: cs) = Grain.run S (Grain.call S g c) cs := rfl
    rw [hrun]
    cases c with
    | getStereoOutput r =>
      have := ih _ _ (Grain.Fading_output S g r k h)
      have e : k + outputCalls (GrainCall.getStereoOutput r :: cs) = k + 1 + outputCalls cs := by
        simp [outputCalls, GrainCall.isOutput]; omega
      rw [e]; exact this
    | step s =>
      have := ih _ _ (Grain.Fading_step S g s k h)
      have e : k + outputCalls (GrainCall.step s :: cs) = k + outputCalls cs := by
        simp [outputCalls, GrainCall.isOutput]
      rw [e]; exact this
    | markForRemoval =>
      have := ih _ _ (Grain.Fading_mark g k h)
      have e : k + outputCalls (GrainCall.markForRemoval :: cs) = k + outputCalls cs := by
        simp [outputCalls, GrainCall.isOutput]
      rw [e]; exact this

theorem Grain.Fading_zero_of_marked (g : Grain σ) (h1 : g.erase_me = false)
    (h2 : g.removal_smoothing_ramp = F32.zero) : g.markForRemoval.Fading 0 := by
  rw [Grain.markForRemoval_eq]
  exact ⟨rfl, h2, by simpa using h1⟩

/-- The constant `0.01f` lies below `1/100`: `100 * 10737418 < 2 ^ 30`, and it is
the binary32 number nearest to `1/100` (`10737418` is the integer nearest to
`2 ^ 30 / 100`). -/
theorem REMOVAL_RAMP_ACCUMULATOR_below :
    REMOVAL_RAMP_ACCUMULATOR = F32.finite 10737418 (-30) ∧
      100 * 10737418 < 2 ^ 30 ∧ 2 ^ 30 < 100 * 10737418 + 50 ∧
      F32.Valid REMOVAL_RAMP_ACCUMULATOR := by
  decide

set_option maxRecDepth 1000000 in
/-- Counterexample to C3: a fresh grain on a one-frame sample is marked and then
read 100 times; its ramp is `16777205 * 2 ^ (-24) < 1` and `erase_me` is still
false after the 100th call. -/
theorem C3_counterexample :
    Grain.demo.erase_me = false ∧
      Grain.demo.removal_smoothing_ramp = F32.zero ∧
      Grain.demo.sample_ptr.total_sample_count = 1 ∧
      (Grain.run StereoSmooth.passthrough Grain.demo.markForRemoval
        (List.replicate 100 (GrainCall.getStereoOutput F32.one))).removal_smoothing_ramp =
          F32.finite 16777205 (-24) ∧
      (Grain.run StereoSmooth.passthrough Grain.demo.markForRemoval
        (List.replicate 100 (GrainCall.getStereoOutput F32.one))).erase_me = false := by
  decide

/-- Claim C3 (amended). For every non-retired grain with `removal_smoothing_ramp = 0`,
after `markForRemoval` and any sequence of further calls (`getStereoOutput`
with any smooth rates, `step` calls in between, whatever the sample holds),
`erase_me` is true exactly when at least 101 `getStereoOutput` calls have been
made: the ramp is the binary32 sum of that many increments `0.01f` (at most
101 of them), which is `≥ 1.0f` from the 101st increment on and not
before. -/
theorem C3_fade_completes_on_call_101 (S : StereoSmooth σ) (g : Grain σ)
    (calls : List GrainCall) (h1 : g.erase_me = false)
    (h2 : g.removal_smoothing_ramp = F32.zero) :
    (Grain.run S g.markForRemoval calls).erase_me = decide (101 ≤ outputCalls calls) ∧
      (Grain.run S g.markForRemoval calls).removal_smoothing_ramp =
        rampAfter (min (outputCalls calls) 101) ∧
      F32.ge (Grain.run S g.markForRemoval calls).removal_smoothing_ramp F32.one =
        decide (101 ≤ outputCalls calls) := by
  have hF := Grain.Fading_run S calls _ 0 (Grain.Fading_zero_of_marked g h1 h2)
  rw [Nat.zero_add] at hF
  obtain ⟨_, hb, hc⟩ := hF
  refine ⟨hc, hb, ?_⟩
  rw [hb]
  generalize outputCalls calls = n
  by_cases hn : 101 ≤ n
  · have : min n 101 = 100 + 1 := by omega
    rw [this, (rampAfter_table 100 (by omega)).2]
    simp [hn]
  · cases n with
    | zero => decide
    | succ m =>
      have : min (m + 1) 101 = m + 1 := by omega
      rw [this, (rampAfter_table m (by omega)).2]
      have h100 : ¬ 100 ≤ m := by omega
      simp [hn, h100]

set_option maxRecDepth 1000000 in
/-- Witness for C3 (amended): the example grain, read 100 times with a `step`
after each read, and then once more. -/
theorem C3_fade_completes_on_call_101_witness :
    (Grain.run StereoSmooth.passthrough Grain.demo.markForRemoval
        ((List.replicate 100 [GrainCall.getStereoOutput F32.one, GrainCall.step F32.one]).flatten ++
          [GrainCall.getStereoOutput F32.one])).erase_me =
      decide (101 ≤ outputCalls
        ((List.replicate 100 [GrainCall.getStereoOutput F32.one, GrainCall.step F32.one]).flatten ++
          [GrainCall.getStereoOutput F32.one])) :=
  (C3_fade_completes_on_call_101 StereoSmooth.passthrough Grain.demo _
    (by decide) (by decide)).1

namespace F32

theorem mul_valid (a b : F32) : Valid (mul a b) := by
  cases a <;> cases b <;> simp only [mul] <;> first
    | exact round_valid _ _
    | trivial
    | (split <;> trivial)

/-- Adding a binary32 number to `0.0f` gives that number. -/
theorem zero_add_of_valid (x : F32) (h : Valid x) : add zero x = x := by
  cases x with
  | nan => rfl
  | inf s => rfl
  | finite m e =>
    simp only [add, zero, shl_zero_left, Int.zero_add]
    rcases h with ⟨hm, he⟩ | hc
    · subst hm; subst he
      simp [shl_zero_left, round, zero]
    · by_cases he : 0 ≤ e
      · simp only [if_pos he, Int.sub_zero]
        have h1 : round (shl m e.toNat) 0 = round (shl m e.toNat) (e - (e.toNat : Nat)) := by
          congr 1; omega
        rw [h1, round_scale]
        exact round_canon m e hc
      · simp only [if_neg he, Int.sub_self, Int.toNat_zero, shl_zero_right]
        exact round_canon m e hc

end F32

/-! One marked grain in the engine -/

theorem GrainEngine.process_single (S : StereoSmooth σ) (g : Grain σ) (r s : F32)
    (h : g.erase_me = false) :
    (GrainEngine.process S { grain_queue := [g] } r s).1 =
        (F32.add F32.zero (g.getStereoOutput S r).1.1,
         F32.add F32.zero (g.getStereoOutput S r).1.2) ∧
      (GrainEngine.process S { grain_queue := [g] } r s).2.grain_queue =
        [(g.getStereoOutput S r).2.step S s].filter (fun g => !g.erase_me) := by
  simp [GrainEngine.process, GrainEngine.processLoop, h]

theorem GrainEngine.processMany_nil (S : StereoSmooth σ) (args : List (F32 × F32)) :
    (GrainEngine.processMany S { grain_queue := ([] : List (Grain σ)) } args).grain_queue = [] := by
  induction args with
  | nil => rfl
  | cons a rest ih =>
    have : (GrainEngine.process S { grain_queue := ([] : List (Grain σ)) } a.1 a.2).2 =
        { grain_queue := [] } := by
      simp [GrainEngine.process, GrainEngine.processLoop]
    simp only [GrainEngine.processMany, this]
    exact ih

theorem GrainEngine.processMany_append (S : StereoSmooth σ) (xs ys : List (F32 × F32)) :
    ∀ eng : GrainEngine σ, GrainEngine.processMany S eng (xs ++ ys) =
      GrainEngine.processMany S (GrainEngine.processMany S eng xs) ys := by
  induction xs with
  | nil => intro eng; rfl
  | cons a rest ih =>
    intro eng
    show GrainEngine.processMany S (eng.process S a.1 a.2).2 (rest ++ ys) = _
    rw [ih]
    rfl

theorem GrainEngine.process_fading (S : StereoSmooth σ) (g : Grain σ) (r s : F32) (k : Nat)
    (hF : g.Fading k) (hk : k < 101) :
    (GrainEngine.process S { grain_queue := [g] } r s).1 =
        (F32.mul (g.smoothed S r).1 (fadeFactor (k + 1)),
         F32.mul (g.smoothed S r).2 (fadeFactor (k + 1))) ∧
      (GrainEngine.process S { grain_queue := [g] } r s).2.grain_queue =
        (if k < 100 then [(g.getStereoOutput S r).2.step S s] else []) ∧
      ((g.getStereoOutput S r).2.step S s).Fading (k + 1) := by
  have he : g.erase_me = false := by rw [hF.2.2]; simp; omega
  obtain ⟨p1, p2⟩ := GrainEngine.process_single S g r s he
  obtain ⟨o1, o2⟩ := Grain.getStereoOutput_fading S g r k hF hk
  have hF' := Grain.Fading_step S _ s _ o2
  refine ⟨?_, ?_, hF'⟩
  · rw [p1, o1]
    simp only [F32.zero_add_of_valid _ (F32.mul_valid _ _)]
  · rw [p2]
    have := hF'.2.2
    by_cases h100 : k < 100
    · have hn : ¬ 101 ≤ k + 1 := by omega
      simp [List.filter, this, hn, h100]
    · have hn : 101 ≤ k + 1 := by omega
      simp [List.filter, this, hn, h100]

theorem GrainEngine.processMany_fading (S : StereoSmooth σ) (args : List (F32 × F32)) :
    ∀ (g : Grain σ) (k : Nat), g.Fading k → k + args.length ≤ 100 →
      ∃ g', (GrainEngine.processMany S { grain_queue := [g] } args).grain_queue = [g'] ∧
        g'.Fading (k + args.length) := by
  induction args with
  | nil => intro g k h _; exact ⟨g, rfl, by simpa using h⟩
  | cons a rest ih =>
    intro g k hF hk
    simp only [List.length_cons] at hk
    obtain ⟨_, q, f⟩ := GrainEngine.process_fading S g a.1 a.2 k hF (by omega)
    rw [if_pos (by omega)] at q
    have e : (GrainEngine.process S { grain_queue := [g] } a.1 a.2).2 =
        { grain_queue := [(g.getStereoOutput S a.1).2.step S a.2] } := by
      cases hh : (GrainEngine.process S { grain_queue := [g] } a.1 a.2).2
      rw [hh] at q
      simp only at q
      rw [q]
    obtain ⟨g', h1, h2⟩ := ih _ (k + 1) f (by omega)
    refine ⟨g', ?_, ?_⟩
    · simp only [GrainEngine.processMany, e]
      exact h1
    · simp only [List.length_cons]
      have : k + (rest.length + 1) = k + 1 + rest.length := by omega
      rw [this]; exact h2

set_option maxRecDepth 1000000 in
/-- Counterexample to C4: one fresh grain on a one-frame sample holding `1.0f`
is marked; after 99 `process` calls the 100th returns `11 * 2 ^ (-24)` on both
channels (written `11534336 * 2 ^ (-44)`), not zero. -/
theorem C4_counterexample :
    (GrainEngine.processMany StereoSmooth.passthrough GrainEngine.demoMarked
        (List.replicate 99 (F32.one, F32.zero))).size = 1 ∧
      ((GrainEngine.processMany StereoSmooth.passthrough GrainEngine.demoMarked
        (List.replicate 99 (F32.one, F32.zero))).process StereoSmooth.passthrough
          F32.one F32.zero).1 = (F32.finite 11534336 (-44), F32.finite 11534336 (-44)) ∧
      ((GrainEngine.processMany StereoSmooth.passthrough GrainEngine.demoMarked
        (List.replicate 99 (F32.one, F32.zero))).process StereoSmooth.passthrough
          F32.one F32.zero).1 ≠ (F32.zero, F32.zero) := by
  decide

set_option maxRecDepth 1000000 in
theorem fadeFactor_100 : fadeFactor 100 = F32.finite 11534336 (-44) := by decide

set_option maxRecDepth 1000000 in
theorem fadeFactor_101 : fadeFactor 101 = F32.finite (-10736768) (-30) := by decide

/-- Claim C4 (amended). For every engine holding exactly one freshly added grain that
is then marked for removal (by `markAllForRemoval` or, the same,
`markOldestForRemoval(1)`): `size()` is 1 after each of the first 100
`process` calls and 0 after every later one, so the grain is still held after
the 100th call and is swept by the 101st; on the 100th call the returned mix
is the grain's smoothed pair multiplied by `1.0f - ramp = 11 * 2 ^ (-24)`
(about `6.6e-7`: near zero, not zero). -/
theorem C4_single_marked_grain (S : StereoSmooth σ) (start_position playback_length : F32)
    (sample_ptr : Sample) (args : List (F32 × F32)) :
    (GrainEngine.processMany S
        (GrainEngine.empty.add S start_position playback_length sample_ptr).markAllForRemoval
        args).size = (if args.length ≤ 100 then 1 else 0) ∧
      (GrainEngine.empty.add S start_position playback_length sample_ptr).markOldestForRemoval 1 =
        (GrainEngine.empty.add S start_position playback_length sample_ptr).markAllForRemoval ∧
      ∀ smooth_rate step_amount : F32, args.length = 99 →
        ∃ g, (GrainEngine.processMany S
            (GrainEngine.empty.add S start_position playback_length
              sample_ptr).markAllForRemoval args).grain_queue = [g] ∧
          ((GrainEngine.processMany S
            (GrainEngine.empty.add S start_position playback_length
              sample_ptr).markAllForRemoval args).process S smooth_rate step_amount).1 =
            (F32.mul (g.smoothed S smooth_rate).1 (F32.finite 11534336 (-44)),
             F32.mul (g.smoothed S smooth_rate).2 (F32.finite 11534336 (-44))) := by
  have h0 : (GrainEngine.empty.add S start_position playback_length sample_ptr).markAllForRemoval =
      { grain_queue := [(Grain.fresh S start_position playback_length sample_ptr).markForRemoval] } := by
    simp [GrainEngine.add, GrainEngine.markAllForRemoval, GrainEngine.empty]
  have hF : (Grain.fresh S start_position playback_length sample_ptr).markForRemoval.Fading 0 :=
    Grain.Fading_zero_of_marked _ rfl rfl
  rw [h0]
  refine ⟨?_, ?_, ?_⟩
  · by_cases hlen : args.length ≤ 100
    · obtain ⟨g', hq, _⟩ := GrainEngine.processMany_fading S args _ 0 hF (by omega)
      simp [GrainEngine.size, hq, hlen]
    · rw [if_neg hlen]
      have hsplit : args = args.take 100 ++ args.drop 100 := (List.take_append_drop 100 args).symm
      have hl : (args.take 100).length = 100 := by simp; omega
      obtain ⟨g', hq, hF'⟩ := GrainEngine.processMany_fading S (args.take 100) _ 0 hF (by omega)
      rw [hl] at hF'
      have hq' : GrainEngine.processMany S
          { grain_queue := [(Grain.fresh S start_position playback_length sample_ptr).markForRemoval] }
          (args.take 100) = { grain_queue := [g'] } := by
        cases hh : GrainEngine.processMany S
          { grain_queue := [(Grain.fresh S start_position playback_length sample_ptr).markForRemoval] }
          (args.take 100)
        rw [hh] at hq
        simp only at hq
        rw [hq]
      cases hd : args.drop 100 with
      | nil =>
        have : (args.drop 100).length = 0 := by rw [hd]; rfl
        simp at this
        omega
      | cons a rest =>
        rw [hsplit, GrainEngine.processMany_append, hq', hd]
        obtain ⟨_, q, _⟩ := GrainEngine.process_fading S g' a.1 a.2 100 (by simpa using hF') (by omega)
        rw [if_neg (by omega)] at q
        have e : (GrainEngine.process S { grain_queue := [g'] } a.1 a.2).2 =
            { grain_queue := [] } := by
          cases hh : (GrainEngine.process S { grain_queue := [g'] } a.1 a.2).2
          rw [hh] at q
          simp only at q
          rw [q]
        simp only [GrainEngine.processMany, e, GrainEngine.size,
          GrainEngine.processMany_nil, List.length_nil]
  · simp [GrainEngine.markOldestForRemoval, GrainEngine.add, GrainEngine.empty,
      GrainEngine.markAllForRemoval]
  · intro r s hlen
    obtain ⟨g', hq, hF'⟩ := GrainEngine.processMany_fading S args _ 0 hF (by omega)
    refine ⟨g', hq, ?_⟩
    have hq' : GrainEngine.processMany S
        { grain_queue := [(Grain.fresh S start_position playback_length sample_ptr).markForRemoval] }
        args = { grain_queue := [g'] } := by
      cases hh : GrainEngine.processMany S
        { grain_queue := [(Grain.fresh S start_position playback_length sample_ptr).markForRemoval] }
        args
      rw [hh] at hq
      simp only at hq
      rw [hq]
    rw [hq', ← fadeFactor_100]
    rw [Nat.zero_add, hlen] at hF'
    exact (GrainEngine.process_fading S g' r s 99 hF' (by omega)).1

set_option maxRecDepth 1000000 in
/-- Claim C5, the code at the failing input: the marked example grain reads the
constant sample `1.0f` through the passthrough filter.  Its 100th read
returns `11 * 2 ^ (-24)`; the 101st applies the factor `1.0f - ramp` with the
ramp already above one and returns `-10736768 * 2 ^ (-30)` (about `-0.01`):
the factor is negative, not within `[0, 1]`, and the output magnitude has
grown instead of reaching silence. -/
theorem C5_code_at_failing_input :
    ((Grain.run StereoSmooth.passthrough Grain.demo.markForRemoval
        (List.replicate 99 (GrainCall.getStereoOutput F32.one))).getStereoOutput
          StereoSmooth.passthrough F32.one).1 =
        (F32.finite 11534336 (-44), F32.finite 11534336 (-44)) ∧
      ((Grain.run StereoSmooth.passthrough Grain.demo.markForRemoval
        (List.replicate 100 (GrainCall.getStereoOutput F32.one))).getStereoOutput
          StereoSmooth.passthrough F32.one).1 =
        (F32.finite (-10736768) (-30), F32.finite (-10736768) (-30)) ∧
      F32.sub F32.one
        ((Grain.run StereoSmooth.passthrough Grain.demo.markForRemoval
          (List.replicate 101 (GrainCall.getStereoOutput F32.one))).removal_smoothing_ramp) =
        F32.finite (-10736768) (-30) ∧
      F32.le F32.zero (F32.finite (-10736768) (-30)) = false ∧
      F32.lt (F32.finite 11534336 (-44)) (F32.neg (F32.finite (-10736768) (-30))) = true := by
  decide

/-- The fade call by call.  For every non-retired grain whose `removal_smoothing_ramp` is
`0` when `markForRemoval` is called, and any later sequence of calls holding
`n` calls of `getStereoOutput`: while `n < 101` the next `getStereoOutput`
multiplies both channels of the smoothed pair by the factor
`1.0f - ramp = fadeFactor (n + 1)`; these factors lie in `[0, 1]` for the
first 100 calls and never increase from one call to the next; the factor of
the 101st call is negative (`-10736768 * 2 ^ (-30)`, the ramp having passed
one); every call after the 101st returns exactly `(0, 0)` and leaves the
grain as it is. -/
theorem Grain.fade_factors (S : StereoSmooth σ) (g : Grain σ) (calls : List GrainCall)
    (smooth_rate : F32) (h1 : g.erase_me = false)
    (h2 : g.removal_smoothing_ramp = F32.zero) :
    (outputCalls calls < 101 →
        ((Grain.run S g.markForRemoval calls).getStereoOutput S smooth_rate).1 =
          (F32.mul ((Grain.run S g.markForRemoval calls).smoothed S smooth_rate).1
              (fadeFactor (outputCalls calls + 1)),
           F32.mul ((Grain.run S g.markForRemoval calls).smoothed S smooth_rate).2
              (fadeFactor (outputCalls calls + 1)))) ∧
      (101 ≤ outputCalls calls →
        (Grain.run S g.markForRemoval calls).getStereoOutput S smooth_rate =
          ((F32.zero, F32.zero), Grain.run S g.markForRemoval calls)) ∧
      (∀ k, k < 100 →
        F32.le F32.zero (fadeFactor (k + 1)) = true ∧
          F32.le (fadeFactor (k + 1)) F32.one = true ∧
          F32.le (fadeFactor (k + 2)) (fadeFactor (k + 1)) = true) ∧
      fadeFactor 101 = F32.finite (-10736768) (-30) ∧
      F32.lt (fadeFactor 101) F32.zero = true := by
  have hF := Grain.Fading_run S calls _ 0 (Grain.Fading_zero_of_marked g h1 h2)
  rw [Nat.zero_add] at hF
  refine ⟨?_, ?_, fadeFactor_table, fadeFactor_101, ?_⟩
  · intro hn
    exact (Grain.getStereoOutput_fading S _ smooth_rate _ hF hn).1
  · intro hn
    exact Grain.getStereoOutput_retired_fading S _ smooth_rate _ hF hn
  · rw [fadeFactor_101]
    decide

set_option maxRecDepth 1000000 in
/-- The example grain after 101 reads is silent. -/
theorem Grain.fade_factors_demo :
    (Grain.run StereoSmooth.passthrough Grain.demo.markForRemoval
        (List.replicate 101 (GrainCall.getStereoOutput F32.one))).getStereoOutput
          StereoSmooth.passthrough F32.one =
      ((F32.zero, F32.zero),
        Grain.run StereoSmooth.passthrough Grain.demo.markForRemoval
          (List.replicate 101 (GrainCall.getStereoOutput F32.one))) :=
  (Grain.fade_factors StereoSmooth.passthrough Grain.demo
    (List.replicate 101 (GrainCall.getStereoOutput F32.one)) F32.one
    (by decide) (by decide)).2.1 (by decide)

/-! Order lemmas on binary32 -/

namespace F32

theorem shl_nonneg_iff (m : Int) (k : Nat) : 0 ≤ shl m k ↔ 0 ≤ m := by
  have := shl_neg_iff m k
  constructor <;> intro h <;> omega

theorem shl_pos_iff (m : Int) (k : Nat) : 0 < shl m k ↔ 0 < m := by
  unfold shl
  have hk : (0 : Int) < ((2 ^ k : Nat) : Int) := by exact_mod_cast Nat.two_pow_pos k
  constructor
  · intro h
    by_contra hm
    have : m * ((2 ^ k : Nat) : Int) ≤ 0 :=
      Int.mul_nonpos_of_nonpos_of_nonneg (by omega) (le_of_lt hk)
    omega
  · intro h
    exact Int.mul_pos h hk

theorem le_zero_finite (m e : Int) : le zero (finite m e) = decide (0 ≤ m) := by
  simp only [le, zero, shl_zero_left, shl_nonneg_iff]

theorem lt_zero_finite (m e : Int) : lt zero (finite m e) = decide (0 < m) := by
  simp only [lt, zero, shl_zero_left, shl_pos_iff]

theorem lt_of_le_eq_false (ma ea mb eb : Int)
    (h : le (finite mb eb) (finite ma ea) = false) :
    lt (finite ma ea) (finite mb eb) = true := by
  simp only [le, lt, decide_eq_false_iff_not, decide_eq_true_eq] at *
  by_cases h1 : ea ≤ eb
  · by_cases h2 : eb ≤ ea
    · have : ea = eb := by omega
      subst this
      simp only [if_pos h1] at *
      omega
    · simp only [if_pos h1, if_neg h2] at *
      omega
  · have h2 : eb ≤ ea := by omega
    simp only [if_neg h1, if_pos h2] at *
    omega

theorem round_nonneg (M e m' e' : Int) (hM : 0 ≤ M) (h : round M e = finite m' e') :
    0 ≤ m' := by
  unfold round at h
  have hneg : ¬ M < 0 := by omega
  simp only [hneg, if_false, decide_False] at h
  repeat' split at h
  all_goals first
    | (simp only [zero, finite.injEq] at h; omega)
    | (cases h)

/-- A mantissa below `2 ^ 24` at an exponent within range is kept exactly:
`round` only moves it to its normal form. -/
theorem round_small (n : Nat) (e : Int) (h0 : n ≠ 0) (hn : n < 16777216)
    (he1 : -149 ≤ e) (he2 : e ≤ 104) :
    ∃ d : Nat, (d : Int) ≤ e + 149 ∧ round (n : Int) e = finite ((n * 2 ^ d : Nat) : Int) (e - d) := by
  have hb : bitLen n ≤ 24 := (bitLen_le_iff n 24).2 (by norm_num; omega)
  have hlt := lt_two_pow_bitLen n
  obtain ⟨t, ht⟩ : ∃ t, t = targetExp (bitLen n) e := ⟨_, rfl⟩
  have ht1 : t ≤ e := by rw [ht]; unfold targetExp; split <;> omega
  have ht2 : e + bitLen n - 24 ≤ t := by rw [ht]; unfold targetExp; split <;> omega
  have ht3 : -149 ≤ t := by rw [ht]; unfold targetExp; split <;> omega
  refine ⟨(e - t).toNat, by omega, ?_⟩
  have hmant : roundMant n e t = n * 2 ^ (e - t).toNat := by
    unfold roundMant; rw [if_pos ht1]
  have hbound : n * 2 ^ (e - t).toNat < 16777216 := by
    have h1 : n * 2 ^ (e - t).toNat < 2 ^ (bitLen n + (e - t).toNat) := by
      rw [pow_add]; exact Nat.mul_lt_mul_of_pos_right hlt (Nat.two_pow_pos _)
    have h2 : 2 ^ (bitLen n + (e - t).toNat) ≤ 2 ^ 24 :=
      Nat.pow_le_pow_right (by norm_num) (by omega)
    have h24 : (2 : Nat) ^ 24 = 16777216 := by norm_num
    omega
  have hpos : n * 2 ^ (e - t).toNat ≠ 0 :=
    Nat.mul_ne_zero h0 (by have := Nat.two_pow_pos (e - t).toNat; omega)
  have hna : (n : Int).natAbs = n := Int.natAbs_ofNat n
  have hnn : ¬ ((n : Int) < 0) := by omega
  have h24 : ¬ (n * 2 ^ (e - t).toNat = 16777216) := by omega
  have h104 : ¬ (104 < t) := by omega
  have hte : e - ((e - t).toNat : Nat) = t := by omega
  simp only [round, hna, h0, if_false, ← ht, hmant, h24, hpos, h104, hnn, hte]

end F32

namespace F32

theorem shl_natCast (n k : Nat) : shl (n : Int) k = ((n * 2 ^ k : Nat) : Int) := by
  unfold shl
  push_cast
  rfl

/-- For binary32 numbers `x ≥ 0` and `y > 0`, `fmod(x, y)` lies in `[0, y)`. -/
theorem fmod_in_range (n' nl : Nat) (e' el : Int)
    (hv' : Valid (finite (n' : Int) e')) (hvl : Valid (finite (nl : Int) el)) (hl : 0 < nl) :
    le zero (fmod (finite (n' : Int) e') (finite (nl : Int) el)) = true ∧
      lt (fmod (finite (n' : Int) e') (finite (nl : Int) el)) (finite (nl : Int) el) = true := by
  have hl0 : ¬ ((nl : Int) = 0) := by omega
  have hnn : ¬ ((n' : Int) < 0) := by omega
  obtain ⟨e0, he0⟩ : ∃ e0 : Int, e0 = if e' ≤ el then e' else el := ⟨_, rfl⟩
  obtain ⟨a, ha⟩ : ∃ a : Nat, a = (e' - e0).toNat := ⟨_, rfl⟩
  obtain ⟨b, hb⟩ : ∃ b : Nat, b = (el - e0).toNat := ⟨_, rfl⟩
  have hfm : fmod (finite (n' : Int) e') (finite (nl : Int) el) =
      round (((n' * 2 ^ a % (nl * 2 ^ b) : Nat) : Int)) e0 := by
    simp only [fmod, hl0, hnn, if_false, ← he0, ← ha, ← hb, shl_natCast, Int.natAbs_ofNat]
  rw [hfm]
  have hcl : CanonMant nl el := by
    rcases hvl with ⟨h, _⟩ | h
    · omega
    · simpa using h
  obtain ⟨_, cl2, cl3, cl4, _⟩ := hcl
  have hypos : 0 < nl * 2 ^ b := Nat.mul_pos hl (Nat.two_pow_pos b)
  obtain ⟨r, hr⟩ : ∃ r, r = n' * 2 ^ a % (nl * 2 ^ b) := ⟨_, rfl⟩
  have hry : r < nl * 2 ^ b := by rw [hr]; exact Nat.mod_lt _ hypos
  rw [← hr]
  by_cases hr0 : r = 0
  · subst hr0
    have : round ((0 : Nat) : Int) e0 = zero := by simp [round]
    rw [this]
    refine ⟨by decide, ?_⟩
    rw [lt_zero_finite]
    simp
    omega
  · have hn0 : n' ≠ 0 := by
      intro h
      rw [h] at hr
      simp at hr
      exact hr0 hr
    have hc' : CanonMant n' e' := by
      rcases hv' with ⟨h, _⟩ | h
      · omega
      · simpa using h
    obtain ⟨_, c2, c3, c4, _⟩ := hc'
    have hr24 : r < 16777216 := by
      by_cases hle : e' ≤ el
      · have : a = 0 := by rw [ha, he0, if_pos hle]; simp
        have h1 : r ≤ n' * 2 ^ a := by rw [hr]; exact Nat.mod_le _ _
        rw [this] at h1
        simp at h1
        omega
      · have : b = 0 := by rw [hb, he0, if_neg hle]; simp
        rw [this] at hry
        simp at hry
        omega
    have he01 : -149 ≤ e0 := by rw [he0]; split <;> omega
    have he02 : e0 ≤ 104 := by rw [he0]; split <;> omega
    have he0l : e0 ≤ el := by rw [he0]; split <;> omega
    obtain ⟨d, _, hd⟩ := round_small r e0 hr0 hr24 he01 he02
    rw [hd]
    refine ⟨?_, ?_⟩
    · rw [le_zero_finite]
      simp
    · have hmin : e0 - (d : Int) ≤ el := by omega
      have hx : (e0 - (d : Int) - (e0 - (d : Int))).toNat = 0 := by simp
      have hy : (el - (e0 - (d : Int))).toNat = b + d := by omega
      simp only [lt, if_pos hmin, hx, hy, shl_natCast, decide_eq_true_eq]
      have : r * 2 ^ d < nl * 2 ^ b * 2 ^ d := Nat.mul_lt_mul_of_pos_right hry (Nat.two_pow_pos d)
      have e2 : nl * 2 ^ (b + d) = nl * 2 ^ b * 2 ^ d := by rw [pow_add, Nat.mul_assoc]
      rw [e2]
      simp only [pow_zero, Nat.mul_one]
      exact_mod_cast this

end F32

/-! The playback cursor stays in range -/

theorem F32.add_nonneg_finite (a b : F32) (m' e' : Int) (ha : F32.le F32.zero a = true)
    (hb : F32.le F32.zero b = true) (h : F32.add a b = F32.finite m' e') : 0 ≤ m' := by
  cases a with
  | nan => simp [F32.le, F32.zero] at ha
  | inf sa => cases b <;> simp [F32.add] at h; split at h <;> simp at h
  | finite ma ea =>
    cases b with
    | nan => simp [F32.le, F32.zero] at hb
    | inf sb => simp [F32.add] at h
    | finite mb eb =>
      rw [F32.le_zero_finite] at ha hb
      simp only [decide_eq_true_eq] at ha hb
      simp only [F32.add] at h
      refine F32.round_nonneg _ _ _ _ ?_ h
      have h1 := (F32.shl_nonneg_iff ma (ea - if ea ≤ eb then ea else eb).toNat).2 ha
      have h2 := (F32.shl_nonneg_iff mb (eb - if ea ≤ eb then ea else eb).toNat).2 hb
      omega

theorem Grain.step_inRange (S : StereoSmooth σ) (g : Grain σ) (s : F32)
    (hv : F32.Valid g.playback_length) (hpos : F32.lt F32.zero g.playback_length = true)
    (hin : g.InRange) (hs : F32.le F32.zero s = true)
    (hfin : (F32.add g.playback_position s).isFinite = true) :
    (g.step S s).InRange := by
  unfold Grain.step
  dsimp only
  split
  swap
  · exact hin
  obtain ⟨hin1, hin2⟩ := hin
  cases hp : F32.add g.playback_position s with
  | nan => rw [hp] at hfin; simp [F32.isFinite] at hfin
  | inf b => rw [hp] at hfin; simp [F32.isFinite] at hfin
  | finite m' e' =>
    have hm' : 0 ≤ m' := F32.add_nonneg_finite _ _ m' e' hin1 hs hp
    have hvp : F32.Valid (F32.finite m' e') := by rw [← hp]; exact F32.add_valid _ _
    obtain ⟨n', rfl⟩ := Int.eq_ofNat_of_zero_le hm'
    cases hlen : g.playback_length with
    | nan => rw [hlen] at hpos; simp [F32.lt, F32.zero] at hpos
    | inf b =>
      rw [hlen] at hpos
      have hb : b = false := by simpa [F32.lt, F32.zero] using hpos
      subst hb
      have : F32.ge (F32.finite (n' : Int) e') (F32.inf false) = false := by
        simp [F32.ge, F32.le]
      rw [this]
      simp only [Bool.false_eq_true, if_false]
      unfold Grain.InRange
      simp only [hlen]
      refine ⟨?_, by simp [F32.lt]⟩
      rw [F32.le_zero_finite]
      simp
    | finite ml el =>
      rw [hlen] at hpos hv
      rw [F32.lt_zero_finite] at hpos
      simp only [decide_eq_true_eq] at hpos
      obtain ⟨nl, rfl⟩ := Int.eq_ofNat_of_zero_le (le_of_lt hpos)
      have hnl : 0 < nl := by omega
      by_cases hge : F32.ge (F32.finite (n' : Int) e') (F32.finite (nl : Int) el) = true
      · rw [if_pos hge]
        unfold Grain.InRange
        simp only [hlen]
        exact F32.fmod_in_range n' nl e' el hvp hv hnl
      · rw [if_neg hge]
        unfold Grain.InRange
        simp only [hlen]
        refine ⟨?_, ?_⟩
        · rw [F32.le_zero_finite]; simp
        · apply F32.lt_of_le_eq_false
          simpa [F32.ge] using hge

theorem Grain.step_playback_length (S : StereoSmooth σ) (g : Grain σ) (s : F32) :
    (g.step S s).playback_length = g.playback_length := by
  unfold Grain.step
  dsimp only
  split
  · split <;> rfl
  · rfl

theorem Grain.getStereoOutput_cursor (S : StereoSmooth σ) (g : Grain σ) (r : F32) :
    (g.getStereoOutput S r).2.playback_length = g.playback_length ∧
      (g.getStereoOutput S r).2.playback_position = g.playback_position := by
  unfold Grain.getStereoOutput
  dsimp only
  split
  · exact ⟨rfl, rfl⟩
  · split <;> exact ⟨rfl, rfl⟩

theorem Grain.markForRemoval_cursor (g : Grain σ) :
    g.markForRemoval.playback_length = g.playback_length ∧
      g.markForRemoval.playback_position = g.playback_position := by
  rw [Grain.markForRemoval_eq]
  exact ⟨rfl, rfl⟩

theorem Grain.run_inRange (S : StereoSmooth σ) (calls : List GrainCall) :
    ∀ g : Grain σ, F32.Valid g.playback_length → F32.lt F32.zero g.playback_length = true →
      g.InRange → Grain.StepsFinite S g calls →
      (Grain.run S g calls).InRange ∧
        (Grain.run S g calls).playback_length = g.playback_length := by
  induction calls with
  | nil => intro g _ _ h _; exact ⟨h, rfl⟩
  | cons c cs ih =>
    intro g hv hpos hin hok
    have hrun : Grain.run S g (c :: cs) = Grain.run S (Grain.call S g c) cs := rfl
    rw [hrun]
    cases c with
    | getStereoOutput r =>
      obtain ⟨e1, e2⟩ := Grain.getStereoOutput_cursor S g r
      have hin' : (Grain.call S g (GrainCall.getStereoOutput r)).InRange := by
        unfold Grain.InRange Grain.call
        rw [e1, e2]; exact hin
      have := ih (Grain.call S g (GrainCall.getStereoOutput r))
        (by unfold Grain.call; rw [e1]; exact hv) (by unfold Grain.call; rw [e1]; exact hpos)
        hin' hok
      exact ⟨this.1, by rw [this.2]; exact e1⟩
    | markForRemoval =>
      obtain ⟨e1, e2⟩ := Grain.markForRemoval_cursor g
      have hin' : (Grain.call S g GrainCall.markForRemoval).InRange := by
        unfold Grain.InRange Grain.call
        rw [e1, e2]; exact hin
      have := ih (Grain.call S g GrainCall.markForRemoval)
        (by unfold Grain.call; rw [e1]; exact hv) (by unfold Grain.call; rw [e1]; exact hpos)
        hin' hok
      exact ⟨this.1, by rw [this.2]; exact e1⟩
    | step s =>
      obtain ⟨⟨hs, hfin⟩, hrest⟩ := hok
      have e1 := Grain.step_playback_length S g s
      have hin' := Grain.step_inRange S g s hv hpos hin hs hfin
      have := ih (g.step S s) (by rw [e1]; exact hv) (by rw [e1]; exact hpos) hin' hrest
      exact ⟨this.1, this.2.trans e1⟩

set_option maxRecDepth 1000000 in
/-- Counterexample to C6.  The example grain has `playback_length = 1.0f` and
`playback_position = 0.0f`; `step(+∞)` (a step amount `≥ 0`) leaves
`playback_position = fmod(+∞, 1.0f) = NaN`, which is not `≥ 0`.  With finite
numbers only: a grain of length `FLT_MAX` stepped by `2 ^ 127` is at
`2 ^ 127 < FLT_MAX`; a further step by `FLT_MAX` overflows to `+∞` and the
position becomes NaN as well. -/
theorem C6_counterexample :
    (F32.lt F32.zero Grain.demo.playback_length = true ∧
        F32.le F32.zero Grain.demo.playback_position = true ∧
        F32.lt Grain.demo.playback_position Grain.demo.playback_length = true ∧
        F32.le F32.zero (F32.inf false) = true ∧
        (Grain.demo.step StereoSmooth.passthrough (F32.inf false)).playback_position = F32.nan ∧
        F32.le F32.zero
          (Grain.demo.step StereoSmooth.passthrough (F32.inf false)).playback_position = false) ∧
      (F32.lt F32.zero F32.max = true ∧
        F32.le F32.zero (F32.finite 8388608 104) = true ∧
        ((Grain.fresh StereoSmooth.passthrough F32.zero F32.max Sample.unit).step
          StereoSmooth.passthrough (F32.finite 8388608 104)).playback_position =
            F32.finite 8388608 104 ∧
        F32.lt (F32.finite 8388608 104) F32.max = true ∧
        F32.le F32.zero F32.max = true ∧
        (((Grain.fresh StereoSmooth.passthrough F32.zero F32.max Sample.unit).step
          StereoSmooth.passthrough (F32.finite 8388608 104)).step
            StereoSmooth.passthrough F32.max).playback_position = F32.nan) := by
  decide

/-- Claim C6 (amended). For every grain with a binary32 `playback_length > 0` and
`0 <= playback_position < playback_length`, and every `step_amount >= 0` for
which the float sum `playback_position + step_amount` is finite (no overflow
to infinity), the grain satisfies `0 <= playback_position < playback_length`
after `step(step_amount)`; hence the bound holds after every sequence of
calls all of whose steps meet that condition, in particular from a fresh
grain of positive length, which starts in range. -/
theorem C6_step_keeps_cursor_in_range (S : StereoSmooth σ) (g : Grain σ) (step_amount : F32)
    (calls : List GrainCall) (hv : F32.Valid g.playback_length)
    (hpos : F32.lt F32.zero g.playback_length = true) (hin : g.InRange) :
    (F32.le F32.zero step_amount = true →
        (F32.add g.playback_position step_amount).isFinite = true →
        (g.step S step_amount).InRange) ∧
      (Grain.StepsFinite S g calls → (Grain.run S g calls).InRange) ∧
      (∀ (start_position : F32) (sample_ptr : Sample),
        (Grain.fresh S start_position g.playback_length sample_ptr).InRange) := by
  refine ⟨?_, ?_, ?_⟩
  · intro hs hfin
    exact Grain.step_inRange S g step_amount hv hpos hin hs hfin
  · intro hok
    exact (Grain.run_inRange S calls g hv hpos hin hok).1
  · intro sp smp
    exact ⟨(by decide : F32.le F32.zero F32.zero = true), hpos⟩

set_option maxRecDepth 1000000 in
/-- Witness for C6 (amended): the example grain (length `1.0f`) stepped by `1.0f`
wraps to `0.0f` and is in range. -/
theorem C6_step_keeps_cursor_in_range_witness :
    (Grain.demo.step StereoSmooth.passthrough F32.one).InRange :=
  (C6_step_keeps_cursor_in_range StereoSmooth.passthrough Grain.demo F32.one []
    (by decide) (by decide) ⟨by decide, by decide⟩).1 (by decide) (by decide)

/-! The read index -/

theorem F32.trunc_bounds (n : Nat) (e : Int)
    (h : F32.lt (F32.finite (n : Int) e) F32.two32 = true) :
    ∃ t : Nat, F32.trunc (F32.finite (n : Int) e) = (t : Int) ∧ t < 4294967296 := by
  simp only [F32.lt, F32.two32, decide_eq_true_eq] at h
  have h32 : (4294967296 : Nat) = 2 ^ 32 := by norm_num
  have h23 : (8388608 : Int) = ((2 ^ 23 : Nat) : Int) := by norm_num
  rw [h23, F32.shl_natCast, F32.shl_natCast] at h
  have h' : n * 2 ^ (e - if e ≤ 9 then e else 9).toNat <
      2 ^ 23 * 2 ^ (9 - if e ≤ 9 then e else 9).toNat := by exact_mod_cast h
  by_cases he : 0 ≤ e
  · refine ⟨n * 2 ^ e.toNat, ?_, ?_⟩
    · simp only [F32.trunc, if_pos he, F32.shl_natCast]
    · by_cases h9 : e ≤ 9
      · rw [if_pos h9] at h'
        have e1 : (e - e).toNat = 0 := by omega
        rw [e1, pow_zero, Nat.mul_one, ← pow_add] at h'
        have e2 : 23 + (9 - e).toNat + e.toNat = 32 := by omega
        have := Nat.mul_lt_mul_of_pos_right h' (Nat.two_pow_pos e.toNat)
        rw [← pow_add, e2] at this
        omega
      · rw [if_neg h9] at h'
        have e1 : (9 - 9 : Int).toNat = 0 := by decide
        rw [e1, pow_zero, Nat.mul_one] at h'
        have e2 : e.toNat = (e - 9).toNat + 9 := by omega
        rw [e2, pow_add, ← Nat.mul_assoc]
        have := Nat.mul_lt_mul_of_pos_right h' (Nat.two_pow_pos 9)
        have e3 : (2 : Nat) ^ 23 * 2 ^ 9 = 2 ^ 32 := by norm_num
        omega
  · refine ⟨n / 2 ^ (-e).toNat, ?_, ?_⟩
    · simp only [F32.trunc, if_neg he]
      rfl
    · have h9 : e ≤ 9 := by omega
      rw [if_pos h9] at h'
      have e1 : (e - e).toNat = 0 := by omega
      rw [e1, pow_zero, Nat.mul_one, ← pow_add] at h'
      have e2 : 23 + (9 - e).toNat = 32 + (-e).toNat := by omega
      rw [e2, pow_add] at h'
      rw [h32]
      exact Nat.div_lt_of_lt_mul (by rw [Nat.mul_comm]; exact h')

theorem F32.toUInt32_eq_trunc (x : F32) (h0 : F32.le F32.zero x = true)
    (h32 : F32.lt x F32.two32 = true) :
    F32.toUInt32 x = (F32.trunc x).toNat ∧ 0 ≤ F32.trunc x ∧ F32.trunc x < 4294967296 := by
  cases x with
  | nan => simp [F32.le, F32.zero] at h0
  | inf b => cases b <;> simp [F32.le, F32.lt, F32.zero, F32.two32] at h0 h32
  | finite m e =>
    rw [F32.le_zero_finite] at h0
    simp only [decide_eq_true_eq] at h0
    obtain ⟨n, rfl⟩ := Int.eq_ofNat_of_zero_le h0
    obtain ⟨t, ht, hlt⟩ := F32.trunc_bounds n e h32
    have h63 : t < 2 ^ 63 := by
      have : (4294967296 : Nat) < 2 ^ 63 := by norm_num
      omega
    have hmod : ((t : Int) % ((2 ^ 32 : Nat) : Int)).toNat = t := by
      have : (2 ^ 32 : Nat) = 4294967296 := by norm_num
      rw [this]
      omega
    refine ⟨?_, ?_, ?_⟩
    · simp only [F32.toUInt32, ht, Int.natAbs_ofNat, h63, if_true, hmod, Int.toNat_ofNat]
    · rw [ht]; omega
    · rw [ht]; omega

set_option maxRecDepth 1000000 in
/-- Counterexample to C7: a non-retired grain on a three-frame sample with
`start_position = 4294967296.0f` and `playback_position = 0`.  The sum is
non-negative and truncates to `2 ^ 32`, and `2 ^ 32 mod 3 = 1`; but the value
is outside the range of `unsigned int`, the conversion wraps to `0`, and the
buffers are read at index `0`. -/
theorem C7_counterexample :
    (Grain.fresh StereoSmooth.passthrough F32.two32 F32.one Sample.three).erase_me = false ∧
      F32.le F32.zero (F32.add F32.two32 F32.zero) = true ∧
      (F32.trunc (F32.add F32.two32 F32.zero)).toNat % 3 = 1 ∧
      (Grain.fresh StereoSmooth.passthrough F32.two32 F32.one Sample.three).readIndex = 0 ∧
      ((Grain.fresh StereoSmooth.passthrough F32.two32 F32.one Sample.three).getStereoOutput
        StereoSmooth.passthrough F32.one).2.sample_position = 0 := by
  decide

/-- Claim C7 (amended). For every non-retired grain whose sample has
`total_sample_count = L > 0` and whose float sum
`start_position + playback_position` is non-negative and below `2 ^ 32` (the
range in which the conversion to `unsigned int` is defined), the index at
which `getStereoOutput` reads both channel buffers equals that sum truncated
toward zero, taken `mod L`; it lies in `[0, L)`, so it is within every buffer
of length `L`. -/
theorem C7_read_index_in_bounds (S : StereoSmooth σ) (g : Grain σ) (smooth_rate : F32)
    (he : g.erase_me = false) (hL : 0 < g.sample_ptr.total_sample_count)
    (h0 : F32.le F32.zero (F32.add g.start_position g.playback_position) = true)
    (h32 : F32.lt (F32.add g.start_position g.playback_position) F32.two32 = true) :
    (g.getStereoOutput S smooth_rate).2.sample_position =
        (F32.trunc (F32.add g.start_position g.playback_position)).toNat %
          g.sample_ptr.total_sample_count ∧
      (g.getStereoOutput S smooth_rate).2.sample_position = g.readIndex ∧
      (g.getStereoOutput S smooth_rate).2.sample_position < g.sample_ptr.total_sample_count ∧
      (g.sample_ptr.leftPlayBuffer.length = g.sample_ptr.total_sample_count →
        (g.getStereoOutput S smooth_rate).2.sample_position < g.sample_ptr.leftPlayBuffer.length) ∧
      (g.sample_ptr.rightPlayBuffer.length = g.sample_ptr.total_sample_count →
        (g.getStereoOutput S smooth_rate).2.sample_position <
          g.sample_ptr.rightPlayBuffer.length) := by
  have hpos : (g.getStereoOutput S smooth_rate).2.sample_position = g.readIndex := by
    unfold Grain.getStereoOutput
    simp only [he, Bool.false_eq_true, if_false]
    split <;> rfl
  have hidx : g.readIndex =
      (F32.trunc (F32.add g.start_position g.playback_position)).toNat %
        g.sample_ptr.total_sample_count := by
    unfold Grain.readIndex
    rw [(F32.toUInt32_eq_trunc _ h0 h32).1]
  have hlt : g.readIndex < g.sample_ptr.total_sample_count := by
    rw [hidx]; exact Nat.mod_lt _ hL
  rw [hpos]
  exact ⟨hidx, rfl, hlt, fun h => by rw [h]; exact hlt, fun h => by rw [h]; exact hlt⟩

set_option maxRecDepth 1000000 in
/-- Witness for C7 (amended): the example grain reads index `0` of its one-frame sample. -/
theorem C7_read_index_in_bounds_witness :
    (Grain.demo.getStereoOutput StereoSmooth.passthrough F32.one).2.sample_position <
      Grain.demo.sample_ptr.total_sample_count :=
  (C7_read_index_in_bounds StereoSmooth.passthrough Grain.demo F32.one
    (by decide) (by decide) (by decide) (by decide)).2.2.1

/-! Small integers in binary32 -/

namespace F32

/-- An integer below `2 ^ 24` converts to `float` exactly: `ofNat a` is `a`
written with some scaling `2 ^ d * 2 ^ (-d)`. -/
theorem ofNat_repr (a : Nat) (h : a < 16777216) :
    ∃ d : Nat, ofNat a = finite ((a * 2 ^ d : Nat) : Int) (-(d : Int)) := by
  by_cases h0 : a = 0
  · subst h0
    exact ⟨0, by decide⟩
  · obtain ⟨d, _, hd⟩ := round_small a 0 h0 h (by omega) (by omega)
    refine ⟨d, ?_⟩
    unfold ofNat
    rw [hd, Int.zero_sub]

theorem ofNat_zero : ofNat 0 = zero := by decide

theorem ofNat_one : ofNat 1 = one := by decide

theorem add_ofNat (a b : Nat) (ha : a < 16777216) (hb : b < 16777216) :
    add (ofNat a) (ofNat b) = ofNat (a + b) := by
  obtain ⟨da, hda⟩ := ofNat_repr a ha
  obtain ⟨db, hdb⟩ := ofNat_repr b hb
  rw [hda, hdb]
  simp only [add, shl_natCast]
  obtain ⟨D, hD⟩ : ∃ D : Nat, (D : Int) = -(if -(da : Int) ≤ -(db : Int) then -(da : Int) else -(db : Int)) := by
    by_cases hc : -(da : Int) ≤ -(db : Int)
    · exact ⟨da, by rw [if_pos hc]; omega⟩
    · exact ⟨db, by rw [if_neg hc]; omega⟩
  have hE : (if -(da : Int) ≤ -(db : Int) then -(da : Int) else -(db : Int)) = 0 - (D : Int) := by
    omega
  have hda' : da ≤ D := by split at hD <;> omega
  have hdb' : db ≤ D := by split at hD <;> omega
  have e1 : (-(da : Int) - (0 - (D : Int))).toNat = D - da := by omega
  have e2 : (-(db : Int) - (0 - (D : Int))).toNat = D - db := by omega
  rw [hE, e1, e2]
  have p1 : a * 2 ^ da * 2 ^ (D - da) = a * 2 ^ D := by
    rw [Nat.mul_assoc, ← pow_add]; congr 2; omega
  have p2 : b * 2 ^ db * 2 ^ (D - db) = b * 2 ^ D := by
    rw [Nat.mul_assoc, ← pow_add]; congr 2; omega
  rw [p1, p2]
  have p3 : ((a * 2 ^ D : Nat) : Int) + ((b * 2 ^ D : Nat) : Int) = shl ((a + b : Nat) : Int) D := by
    rw [shl_natCast]; push_cast; ring
  rw [p3, round_scale]
  rfl

theorem ge_ofNat (a b : Nat) (ha : a < 16777216) (hb : b < 16777216) :
    ge (ofNat a) (ofNat b) = decide (b ≤ a) := by
  obtain ⟨da, hda⟩ := ofNat_repr a ha
  obtain ⟨db, hdb⟩ := ofNat_repr b hb
  rw [hda, hdb]
  simp only [ge, le, shl_natCast]
  obtain ⟨D, hD⟩ : ∃ D : Nat, (D : Int) = -(if -(db : Int) ≤ -(da : Int) then -(db : Int) else -(da : Int)) := by
    by_cases hc : -(db : Int) ≤ -(da : Int)
    · exact ⟨db, by rw [if_pos hc]; omega⟩
    · exact ⟨da, by rw [if_neg hc]; omega⟩
  have hE : (if -(db : Int) ≤ -(da : Int) then -(db : Int) else -(da : Int)) = 0 - (D : Int) := by
    omega
  have hda' : da ≤ D := by split at hD <;> omega
  have hdb' : db ≤ D := by split at hD <;> omega
  have e1 : (-(da : Int) - (0 - (D : Int))).toNat = D - da := by omega
  have e2 : (-(db : Int) - (0 - (D : Int))).toNat = D - db := by omega
  rw [hE, e1, e2]
  have p1 : a * 2 ^ da * 2 ^ (D - da) = a * 2 ^ D := by
    rw [Nat.mul_assoc, ← pow_add]; congr 2; omega
  have p2 : b * 2 ^ db * 2 ^ (D - db) = b * 2 ^ D := by
    rw [Nat.mul_assoc, ← pow_add]; congr 2; omega
  rw [p1, p2]
  have hpos : 0 < 2 ^ D := Nat.two_pow_pos D
  have : (((b * 2 ^ D : Nat) : Int) ≤ ((a * 2 ^ D : Nat) : Int)) ↔ b ≤ a := by
    rw [Int.ofNat_le]
    constructor
    · intro h
      exact Nat.le_of_mul_le_mul_right h hpos
    · intro h
      exact Nat.mul_le_mul_right _ h
  simp only [this]

theorem fmod_ofNat_self (a : Nat) (h0 : 0 < a) (ha : a < 16777216) :
    fmod (ofNat a) (ofNat a) = ofNat 0 := by
  obtain ⟨d, hd⟩ := ofNat_repr a ha
  rw [hd, ofNat_zero]
  have hne : ¬ (((a * 2 ^ d : Nat) : Int) = 0) := by
    have : 0 < a * 2 ^ d := Nat.mul_pos h0 (Nat.two_pow_pos d)
    omega
  have hnn : ¬ (((a * 2 ^ d : Nat) : Int) < 0) := by omega
  simp only [fmod, hne, hnn, if_false, Nat.mod_self]
  simp [round]

theorem toUInt32_ofNat (c : Nat) (h : c < 16777216) : toUInt32 (ofNat c) = c := by
  obtain ⟨d, hd⟩ := ofNat_repr c h
  rw [hd]
  have ht : trunc (finite ((c * 2 ^ d : Nat) : Int) (-(d : Int))) = (c : Int) := by
    simp only [trunc]
    by_cases h0 : (0 : Int) ≤ -(d : Int)
    · have : d = 0 := by omega
      subst this
      simp [shl]
    · rw [if_neg h0]
      have e : (-(-(d : Int))).toNat = d := by omega
      rw [e]
      show ((c * 2 ^ d / 2 ^ d : Nat) : Int) = (c : Int)
      rw [Nat.mul_div_cancel _ (Nat.two_pow_pos d)]
  have h63 : c < 2 ^ 63 := by
    have : (16777216 : Nat) < 2 ^ 63 := by norm_num
    omega
  have hmod : ((c : Int) % ((2 ^ 32 : Nat) : Int)).toNat = c := by
    have : (2 ^ 32 : Nat) = 4294967296 := by norm_num
    rw [this]
    omega
  simp only [toUInt32, ht, Int.natAbs_ofNat, h63, if_true, hmod]

end F32

/-! A looping grain with integer positions -/

theorem Grain.getStereoOutput_unmarked (S : StereoSmooth σ) (g : Grain σ) (r : F32)
    (h5 : g.erase_me = false) (h6 : g.marked_for_removal = false) :
    g.getStereoOutput S r =
      (g.smoothed S r,
        { g with
          sample_position := g.readIndex
          output_voltage_left := (g.smoothed S r).1
          output_voltage_right := (g.smoothed S r).2
          loop_smooth := (S.process g.loop_smooth
            (g.sample_ptr.leftPlayBuffer.getD g.readIndex F32.zero)
            (g.sample_ptr.rightPlayBuffer.getD g.readIndex F32.zero) r).2 }) := by
  unfold Grain.getStereoOutput Grain.smoothed
  simp only [h5, h6, Bool.false_eq_true, if_false, Bool.false_and]

theorem Grain.PlayingAt_readIndex (s n k : Nat) (smp : Sample) (g : Grain σ)
    (h : g.PlayingAt s n smp k) (hn : 0 < n) (hb : s + n < 16777216) :
    g.readIndex = (s + k % n) % smp.total_sample_count := by
  obtain ⟨h1, _, h3, h4, _, _⟩ := h
  have hk : k % n < n := Nat.mod_lt _ hn
  unfold Grain.readIndex
  rw [h1, h3, h4, F32.add_ofNat _ _ (by omega) (by omega), F32.toUInt32_ofNat _ (by omega)]

theorem Grain.PlayingAt_output (S : StereoSmooth σ) (s n k : Nat) (smp : Sample) (g : Grain σ)
    (r : F32) (h : g.PlayingAt s n smp k) :
    (g.getStereoOutput S r).2.PlayingAt s n smp k ∧
      (g.getStereoOutput S r).2.sample_position = g.readIndex := by
  obtain ⟨h1, h2, h3, h4, h5, h6⟩ := h
  rw [Grain.getStereoOutput_unmarked S g r h5 h6]
  exact ⟨⟨h1, h2, h3, h4, h5, h6⟩, rfl⟩

theorem Grain.PlayingAt_step (S : StereoSmooth σ) (s n k : Nat) (smp : Sample) (g : Grain σ)
    (h : g.PlayingAt s n smp k) (hn : 0 < n) (hb : n < 16777216) :
    (g.step S F32.one).PlayingAt s n smp (k + 1) := by
  obtain ⟨h1, h2, h3, h4, h5, h6⟩ := h
  have hk : k % n < n := Nat.mod_lt _ hn
  have hadd : F32.add g.playback_position F32.one = F32.ofNat (k % n + 1) := by
    rw [h4, ← F32.ofNat_one, F32.add_ofNat _ _ (by omega) (by omega)]
  have hge : F32.ge (F32.ofNat (k % n + 1)) (F32.ofNat n) = decide (n ≤ k % n + 1) :=
    F32.ge_ofNat _ _ (by omega) hb
  have hsucc : (k + 1) % n = (k % n + 1) % n := (Nat.mod_add_mod k n 1).symm
  unfold Grain.step
  simp only [h5, if_true, hadd, h2, hge, decide_eq_true_eq]
  by_cases hw : n ≤ k % n + 1
  · have heq : k % n + 1 = n := by omega
    have hmod : (k + 1) % n = 0 := by rw [hsucc, heq, Nat.mod_self]
    rw [if_pos hw, heq, F32.fmod_ofNat_self n hn hb]
    exact ⟨h1, rfl, h3, by rw [hmod], rfl, h6⟩
  · have hmod : (k + 1) % n = k % n + 1 := by
      rw [hsucc]; exact Nat.mod_eq_of_lt (by omega)
    rw [if_neg hw]
    exact ⟨h1, rfl, h3, by rw [hmod], rfl, h6⟩

theorem GrainEngine.processMany_playing (S : StereoSmooth σ) (s n : Nat) (smp : Sample)
    (hn : 0 < n) (hb : n < 16777216) (rates : List F32) :
    ∀ (g : Grain σ) (k : Nat), g.PlayingAt s n smp k →
      ∃ g', (GrainEngine.processMany S { grain_queue := [g] }
          (rates.map fun r => (r, F32.one))).grain_queue = [g'] ∧
        g'.PlayingAt s n smp (k + rates.length) := by
  induction rates with
  | nil => intro g k h; exact ⟨g, rfl, by simpa using h⟩
  | cons r rest ih =>
    intro g k h
    have ho := (Grain.PlayingAt_output S s n k smp g r h).1
    have hs := Grain.PlayingAt_step S s n k smp _ ho hn hb
    have hq := (GrainEngine.process_single S g r F32.one h.2.2.2.2.1).2
    have he : ((g.getStereoOutput S r).2.step S F32.one).erase_me = false := hs.2.2.2.2.1
    have e : (GrainEngine.process S { grain_queue := [g] } r F32.one).2 =
        { grain_queue := [(g.getStereoOutput S r).2.step S F32.one] } := by
      cases hh : (GrainEngine.process S { grain_queue := [g] } r F32.one).2
      rw [hh] at hq
      simp only at hq
      rw [hq]
      simp [List.filter, he]
    obtain ⟨g', h1, h2⟩ := ih _ (k + 1) hs
    refine ⟨g', ?_, ?_⟩
    · simp only [List.map_cons, GrainEngine.processMany, e]
      exact h1
    · simp only [List.length_cons]
      have : k + (rest.length + 1) = k + 1 + rest.length := by omega
      rw [this]; exact h2

set_option maxRecDepth 1000000 in
/-- Counterexample to C10: a grain added with `start_position = 16777216`
(`2 ^ 24`), `playback_length = 4` on a three-frame sample, processed with
`step_amount = 1`.  On call `k = 1` the claimed index is
`(16777216 + 1) mod 3 = 2`; the float sum `16777216.0f + 1.0f` rounds back to
`16777216.0f` and the index read is `16777216 mod 3 = 1`. -/
theorem C10_counterexample :
    (16777216 + 1 % 4) % Sample.three.total_sample_count = 2 ∧
      F32.add (F32.ofNat 16777216) (F32.ofNat 1) = F32.ofNat 16777216 ∧
      ((GrainEngine.processMany StereoSmooth.passthrough
          (GrainEngine.empty.add StereoSmooth.passthrough (F32.ofNat 16777216) (F32.ofNat 4)
            Sample.three) [(F32.one, F32.one)]).grain_queue.map Grain.readIndex) = [1] ∧
      ((GrainEngine.processMany StereoSmooth.passthrough
          (GrainEngine.empty.add StereoSmooth.passthrough (F32.ofNat 16777216) (F32.ofNat 4)
            Sample.three) [(F32.one, F32.one), (F32.one, F32.one)]).grain_queue.map
              Grain.sample_position) = [1] := by
  decide

/-- Claim C10 (amended). For an engine holding one grain added with a non-negative
integer `start_position = s` and a positive integer `playback_length = n`
with `s + n < 2 ^ 24` (so that every cursor value and every sum
`start_position + playback_position` is an integer that binary32 holds
exactly) on a sample of length `L > 0`, and `process` called repeatedly with
`step_amount = 1` (any smooth rates): after `k` calls the engine holds that one
grain, and the next call, the `k`-th counting from 0, reads sample index
`(s + (k mod n)) mod L`, which is below `L`. -/
theorem C10_successive_read_indices (S : StereoSmooth σ) (s n : Nat) (sample_ptr : Sample)
    (rates : List F32) (hn : 0 < n) (hL : 0 < sample_ptr.total_sample_count)
    (hb : s + n < 16777216) :
    ∃ g, (GrainEngine.processMany S
          (GrainEngine.empty.add S (F32.ofNat s) (F32.ofNat n) sample_ptr)
          (rates.map fun r => (r, F32.one))).grain_queue = [g] ∧
      g.readIndex = (s + rates.length % n) % sample_ptr.total_sample_count ∧
      g.readIndex < sample_ptr.total_sample_count ∧
      ∀ smooth_rate : F32,
        ((GrainEngine.processMany S
          (GrainEngine.empty.add S (F32.ofNat s) (F32.ofNat n) sample_ptr)
          (rates.map fun r => (r, F32.one))).process S smooth_rate F32.one).2.grain_queue.map
            Grain.sample_position = [(s + rates.length % n) % sample_ptr.total_sample_count] := by
  have h0 : GrainEngine.empty.add S (F32.ofNat s) (F32.ofNat n) sample_ptr =
      { grain_queue := [Grain.fresh S (F32.ofNat s) (F32.ofNat n) sample_ptr] } := by
    simp [GrainEngine.add, GrainEngine.empty]
  have hP : (Grain.fresh S (F32.ofNat s) (F32.ofNat n) sample_ptr).PlayingAt s n sample_ptr 0 := by
    refine ⟨rfl, rfl, rfl, ?_, rfl, rfl⟩
    rw [Nat.zero_mod, F32.ofNat_zero]
    rfl
  obtain ⟨g, hq, hg⟩ := GrainEngine.processMany_playing S s n sample_ptr hn (by omega) rates _ 0 hP
  rw [Nat.zero_add] at hg
  rw [h0]
  have hidx := Grain.PlayingAt_readIndex s n rates.length sample_ptr g hg hn hb
  refine ⟨g, hq, hidx, ?_, ?_⟩
  · rw [hidx]; exact Nat.mod_lt _ hL
  · intro r
    have e : GrainEngine.processMany S
        { grain_queue := [Grain.fresh S (F32.ofNat s) (F32.ofNat n) sample_ptr] }
        (rates.map fun r => (r, F32.one)) = { grain_queue := [g] } := by
      cases hh : GrainEngine.processMany S
        { grain_queue := [Grain.fresh S (F32.ofNat s) (F32.ofNat n) sample_ptr] }
        (rates.map fun r => (r, F32.one))
      rw [hh] at hq
      simp only at hq
      rw [hq]
    rw [e, (GrainEngine.process_single S g r F32.one hg.2.2.2.2.1).2]
    obtain ⟨ho, hsp⟩ := Grain.PlayingAt_output S s n rates.length sample_ptr g r hg
    have hs := Grain.PlayingAt_step S s n rates.length sample_ptr _ ho hn (by omega)
    have he : ((g.getStereoOutput S r).2.step S F32.one).erase_me = false := hs.2.2.2.2.1
    have hstep : ((g.getStereoOutput S r).2.step S F32.one).sample_position =
        (g.getStereoOutput S r).2.sample_position := by
      unfold Grain.step
      dsimp only
      split
      · split <;> rfl
      · rfl
    simp [List.filter, he, hstep, hsp, hidx]

set_option maxRecDepth 1000000 in
/-- Witness for C10 (amended): the scenario `s = 0`, `n = L = 4` on the sample
`[1, 2, 3, 4]`; after four calls the fifth reads index `0` again. -/
theorem C10_successive_read_indices_witness :
    ∃ g, (GrainEngine.processMany StereoSmooth.passthrough
          (GrainEngine.empty.add StereoSmooth.passthrough (F32.ofNat 0) (F32.ofNat 4) Sample.four)
          ([F32.one, F32.one, F32.one, F32.one].map fun r => (r, F32.one))).grain_queue = [g] ∧
      g.readIndex = (0 + [F32.one, F32.one, F32.one, F32.one].length % 4) %
        Sample.four.total_sample_count ∧
      g.readIndex < Sample.four.total_sample_count ∧
      ∀ smooth_rate : F32,
        ((GrainEngine.processMany StereoSmooth.passthrough
          (GrainEngine.empty.add StereoSmooth.passthrough (F32.ofNat 0) (F32.ofNat 4) Sample.four)
          ([F32.one, F32.one, F32.one, F32.one].map fun r => (r, F32.one))).process
            StereoSmooth.passthrough smooth_rate F32.one).2.grain_queue.map
              Grain.sample_position =
          [(0 + [F32.one, F32.one, F32.one, F32.one].length % 4) %
            Sample.four.total_sample_count] :=
  C10_successive_read_indices StereoSmooth.passthrough 0 4 Sample.four
    [F32.one, F32.one, F32.one, F32.one] (by decide) (by decide) (by decide)

set_option maxRecDepth 1000000 in
/-- The scenario of C10 evaluated: with `s = 0`, `n = L = 4` and `step_amount = 1`
the first five `process` calls read the indices `0, 1, 2, 3, 0`. -/
theorem C10_scenario_indices :
    (List.range 5).map (fun k =>
        (GrainEngine.processMany StereoSmooth.passthrough
          (GrainEngine.empty.add StereoSmooth.passthrough (F32.ofNat 0) (F32.ofNat 4) Sample.four)
          (List.replicate k (F32.one, F32.one))).grain_queue.map Grain.readIndex) =
      [[0], [1], [2], [3], [0]] := by
  decide

/-! Frame conditions of the grain and engine operations -/

/-- Claim C12. For every grain with `erase_me = true` and every `smooth_rate`,
`getStereoOutput` returns exactly `(0, 0)` and leaves the grain, that is
every one of its fields, the filter state included, unchanged. -/
theorem C12_getStereoOutput_retired_is_silent (S : StereoSmooth σ) (g : Grain σ)
    (smooth_rate : F32) (h : g.erase_me = true) :
    (g.getStereoOutput S smooth_rate).1 = (F32.zero, F32.zero) ∧
      (g.getStereoOutput S smooth_rate).2 = g := by
  rw [Grain.getStereoOutput_of_erased S g smooth_rate h]
  exact ⟨rfl, rfl⟩

/-- Witness for C12: the retired example grain. -/
theorem C12_getStereoOutput_retired_is_silent_witness :
    (Grain.demoRetired.getStereoOutput StereoSmooth.passthrough F32.one).1 =
        (F32.zero, F32.zero) ∧
      (Grain.demoRetired.getStereoOutput StereoSmooth.passthrough F32.one).2 =
        Grain.demoRetired :=
  C12_getStereoOutput_retired_is_silent StereoSmooth.passthrough Grain.demoRetired F32.one rfl

theorem F32.ge_eq_false_of_lt (a b : F32) (h : F32.lt a b = true) : F32.ge a b = false := by
  cases a with
  | nan => simp [F32.lt] at h
  | inf sa =>
    cases b with
    | nan => simp [F32.lt] at h
    | inf sb => cases sa <;> cases sb <;> simp [F32.lt, F32.ge, F32.le] at h ⊢
    | finite mb eb => cases sa <;> simp [F32.lt, F32.ge, F32.le] at h ⊢
  | finite ma ea =>
    cases b with
    | nan => simp [F32.lt] at h
    | inf sb => cases sb <;> simp [F32.lt, F32.ge, F32.le] at h ⊢
    | finite mb eb =>
      simp only [F32.ge, F32.le, F32.lt, decide_eq_false_iff_not, decide_eq_true_eq] at *
      by_cases h1 : ea ≤ eb
      · by_cases h2 : eb ≤ ea
        · have : ea = eb := by omega
          subst this
          simp only [if_pos h1] at *
          omega
        · simp only [if_pos h1, if_neg h2] at *
          omega
      · have h2 : eb ≤ ea := by omega
        simp only [if_neg h1, if_pos h2] at *
        omega

theorem F32.fmod_self_of_canon (m e : Int) (h : F32.CanonMant m.natAbs e) :
    F32.fmod (F32.finite m e) (F32.finite m e) = F32.zero := by
  have h0 : ¬ m = 0 := by
    intro hm
    have := h.1
    rw [hm] at this
    simp at this
  simp only [F32.fmod, h0, if_false, le_refl, if_true, Nat.mod_self]
  split <;> simp [F32.round, F32.zero]

/-- Claim C13. `step(step_amount)` leaves a retired grain entirely unchanged.  For a
non-retired grain, with `p = playback_position + step_amount` (float sum):
when `p < playback_length` the cursor becomes `p` and the filter is not
triggered; when `p >= playback_length` the cursor becomes
`fmod(p, playback_length)` and the filter's `trigger()` is called; so the
filter is triggered if and only if `p >= playback_length`, and no other field
changes.  In the case `p == playback_length` (a non-zero finite length) the
cursor wraps to `0`. -/
theorem C13_step_semantics (S : StereoSmooth σ) (g : Grain σ) (step_amount : F32) :
    (g.erase_me = true → g.step S step_amount = g) ∧
      (g.erase_me = false →
        g.step S step_amount =
          { g with
            playback_position :=
              if F32.ge (F32.add g.playback_position step_amount) g.playback_length = true
              then F32.fmod (F32.add g.playback_position step_amount) g.playback_length
              else F32.add g.playback_position step_amount
            loop_smooth :=
              if F32.ge (F32.add g.playback_position step_amount) g.playback_length = true
              then S.trigger g.loop_smooth else g.loop_smooth }) ∧
      (g.erase_me = false →
        F32.lt (F32.add g.playback_position step_amount) g.playback_length = true →
        (g.step S step_amount).playback_position = F32.add g.playback_position step_amount ∧
          (g.step S step_amount).loop_smooth = g.loop_smooth) ∧
      (g.erase_me = false →
        F32.ge (F32.add g.playback_position step_amount) g.playback_length = true →
        (g.step S step_amount).playback_position =
            F32.fmod (F32.add g.playback_position step_amount) g.playback_length ∧
          (g.step S step_amount).loop_smooth = S.trigger g.loop_smooth) ∧
      (∀ m e, g.erase_me = false → g.playback_length = F32.finite m e →
        F32.CanonMant m.natAbs e →
        F32.add g.playback_position step_amount = g.playback_length →
        (g.step S step_amount).playback_position = F32.zero ∧
          (g.step S step_amount).loop_smooth = S.trigger g.loop_smooth) := by
  have hmain : g.erase_me = false →
      g.step S step_amount =
        { g with
          playback_position :=
            if F32.ge (F32.add g.playback_position step_amount) g.playback_length = true
            then F32.fmod (F32.add g.playback_position step_amount) g.playback_length
            else F32.add g.playback_position step_amount
          loop_smooth :=
            if F32.ge (F32.add g.playback_position step_amount) g.playback_length = true
            then S.trigger g.loop_smooth else g.loop_smooth } := by
    intro he
    unfold Grain.step
    simp only [he, if_true]
    split <;> rfl
  refine ⟨?_, hmain, ?_, ?_, ?_⟩
  · intro he
    unfold Grain.step
    simp [he]
  · intro he hlt
    rw [hmain he]
    simp only [F32.ge_eq_false_of_lt _ _ hlt, Bool.false_eq_true, if_false]
    constructor <;> first | rfl | trivial
  · intro he hge
    rw [hmain he]
    simp only [hge, if_true]
    constructor <;> first | rfl | trivial
  · intro m e he hlen hc hp
    rw [hmain he]
    have hge : F32.ge (F32.add g.playback_position step_amount) g.playback_length = true := by
      rw [hp, hlen]
      simp [F32.ge, F32.le]
    simp only [hge, if_true]
    rw [hp, hlen]
    constructor
    · exact F32.fmod_self_of_canon m e hc
    · first | rfl | trivial

/-- Claim C14. `add(start_position, playback_length, sample)` increases `size()`
by exactly one, keeps all previously held grains unchanged as a prefix in the
same order, and the new last grain has the given `start_position`,
`playback_length` and sample, with `playback_position = 0`,
`removal_smoothing_ramp = 0`, `marked_for_removal = false` and
`erase_me = false`. -/
theorem C14_add_appends_fresh_grain (S : StereoSmooth σ) (eng : GrainEngine σ)
    (start_position playback_length : F32) (sample_ptr : Sample) :
    (eng.add S start_position playback_length sample_ptr).size = eng.size + 1 ∧
      (eng.add S start_position playback_length sample_ptr).grain_queue.take eng.size =
        eng.grain_queue ∧
      ∃ g, (eng.add S start_position playback_length sample_ptr).grain_queue =
          eng.grain_queue ++ [g] ∧
        (eng.add S start_position playback_length sample_ptr).grain_queue.getLast? = some g ∧
        g.start_position = start_position ∧ g.playback_length = playback_length ∧
        g.sample_ptr = sample_ptr ∧ g.playback_position = F32.zero ∧
        g.removal_smoothing_ramp = F32.zero ∧ g.marked_for_removal = false ∧
        g.erase_me = false := by
  refine ⟨by simp [GrainEngine.add, GrainEngine.size], by simp [GrainEngine.add, GrainEngine.size],
    Grain.fresh S start_position playback_length sample_ptr, rfl, ?_,
    rfl, rfl, rfl, rfl, rfl, rfl, rfl⟩
  simp [GrainEngine.add]

/-- Claim C16. `markForRemoval()` results in `marked_for_removal = true` and changes
no other field; on an already marked grain it has no effect, so applying it
twice equals applying it once. -/
theorem C16_markForRemoval_idempotent (g : Grain σ) :
    g.markForRemoval = { g with marked_for_removal := true } ∧
      g.markForRemoval.marked_for_removal = true ∧
      (g.marked_for_removal = true → g.markForRemoval = g) ∧
      g.markForRemoval.markForRemoval = g.markForRemoval := by
  have h1 := Grain.markForRemoval_eq g
  have h3 : g.marked_for_removal = true → g.markForRemoval = g := by
    intro h
    unfold Grain.markForRemoval
    simp [h]
  refine ⟨h1, by rw [h1], h3, ?_⟩
  rw [Grain.markForRemoval_eq g.markForRemoval, h1]

/-- Claim C15. After `markAllForRemoval()` every held grain has
`marked_for_removal = true`, while the size, the order and all other grain
fields are unchanged (the `i`-th grain is the old `i`-th grain with the flag
set); applying the operation twice gives the same state as applying it once. -/
theorem C15_markAllForRemoval_idempotent (eng : GrainEngine σ) :
    (∀ g ∈ eng.markAllForRemoval.grain_queue, g.marked_for_removal = true) ∧
      eng.markAllForRemoval.size = eng.size ∧
      eng.markAllForRemoval.grain_queue =
        eng.grain_queue.map (fun g => { g with marked_for_removal := true }) ∧
      (∀ i : Nat, eng.markAllForRemoval.grain_queue[i]? =
        eng.grain_queue[i]?.map (fun g : Grain σ => { g with marked_for_removal := true })) ∧
      eng.markAllForRemoval.markAllForRemoval = eng.markAllForRemoval := by
  have hfun : (Grain.markForRemoval : Grain σ → Grain σ) =
      fun g => { g with marked_for_removal := true } := by
    funext g; exact Grain.markForRemoval_eq g
  refine ⟨?_, ?_, ?_, ?_, ?_⟩
  · intro g hg
    simp only [GrainEngine.markAllForRemoval, List.mem_map] at hg
    obtain ⟨a, _, rfl⟩ := hg
    rw [Grain.markForRemoval_eq]
  · simp [GrainEngine.markAllForRemoval, GrainEngine.size]
  · simp only [GrainEngine.markAllForRemoval, hfun]
  · intro i
    simp only [GrainEngine.markAllForRemoval, hfun, List.getElem?_map]
  · simp only [GrainEngine.markAllForRemoval, List.map_map]
    congr 1
    apply List.map_congr_left
    intro g _
    simp only [Function.comp]
    rw [Grain.markForRemoval_eq g.markForRemoval, Grain.markForRemoval_eq g]

theorem Grain.getStereoOutput_flags (S : StereoSmooth σ) (g : Grain σ) (r : F32) :
    (g.getStereoOutput S r).2.marked_for_removal = g.marked_for_removal ∧
      (g.erase_me = true → (g.getStereoOutput S r).2.erase_me = true) := by
  constructor
  · unfold Grain.getStereoOutput
    dsimp only
    split
    · rfl
    · split <;> rfl
  · intro h
    rw [Grain.getStereoOutput_of_erased S g r h]
    exact h

theorem Grain.step_marked (S : StereoSmooth σ) (g : Grain σ) (s : F32) :
    (g.step S s).marked_for_removal = g.marked_for_removal := by
  unfold Grain.step
  dsimp only
  split
  · split <;> rfl
  · rfl

/-- Claim C17. Both grain flags are one-way latches: for every grain and every
operation (`getStereoOutput`, `step`, `markForRemoval`, with any arguments),
if `marked_for_removal` is true before the operation it is true after it,
and if `erase_me` is true before the operation it is true after it. -/
theorem C17_flags_are_latches (S : StereoSmooth σ) (g : Grain σ) (c : GrainCall) :
    (g.marked_for_removal = true → (Grain.call S g c).marked_for_removal = true) ∧
      (g.erase_me = true → (Grain.call S g c).erase_me = true) ∧
      (∀ smooth_rate, g.marked_for_removal = true →
        (g.getStereoOutput S smooth_rate).2.marked_for_removal = true) ∧
      (∀ smooth_rate, g.erase_me = true →
        (g.getStereoOutput S smooth_rate).2.erase_me = true) ∧
      (∀ step_amount, g.marked_for_removal = true →
        (g.step S step_amount).marked_for_removal = true) ∧
      (∀ step_amount, g.erase_me = true → (g.step S step_amount).erase_me = true) ∧
      (g.marked_for_removal = true → g.markForRemoval.marked_for_removal = true) ∧
      (g.erase_me = true → g.markForRemoval.erase_me = true) := by
  have a1 : ∀ r, g.marked_for_removal = true →
      (g.getStereoOutput S r).2.marked_for_removal = true := by
    intro r h; rw [(Grain.getStereoOutput_flags S g r).1]; exact h
  have a2 : ∀ r, g.erase_me = true → (g.getStereoOutput S r).2.erase_me = true :=
    fun r h => (Grain.getStereoOutput_flags S g r).2 h
  have a3 : ∀ s, g.marked_for_removal = true → (g.step S s).marked_for_removal = true := by
    intro s h; rw [Grain.step_marked]; exact h
  have a4 : ∀ s, g.erase_me = true → (g.step S s).erase_me = true := by
    intro s h; rw [Grain.step_erase_me]; exact h
  have a5 : g.marked_for_removal = true → g.markForRemoval.marked_for_removal = true := by
    intro _; rw [Grain.markForRemoval_eq]
  have a6 : g.erase_me = true → g.markForRemoval.erase_me = true := by
    intro h; rw [Grain.markForRemoval_erase_me]; exact h
  refine ⟨?_, ?_, a1, a2, a3, a4, a5, a6⟩
  · intro h
    cases c with
    | getStereoOutput r => exact a1 r h
    | step s => exact a3 s h
    | markForRemoval => exact a5 h
  · intro h
    cases c with
    | getStereoOutput r => exact a2 r h
    | step s => exact a4 s h
    | markForRemoval => exact a6 h

/-- Claim C20. For the engine with zero grains and every `smooth_rate` and
`step_amount` (in particular `process(1.0, 1.0)`), `process` returns exactly
`(0, 0)` and the engine is still empty afterwards: `isEmpty()` is true and
`size() == 0`. -/
theorem C20_process_on_empty_engine (S : StereoSmooth σ) (smooth_rate step_amount : F32) :
    ((GrainEngine.empty : GrainEngine σ).process S smooth_rate step_amount).1 =
        (F32.zero, F32.zero) ∧
      ((GrainEngine.empty : GrainEngine σ).process S smooth_rate step_amount).2.isEmpty = true ∧
      ((GrainEngine.empty : GrainEngine σ).process S smooth_rate step_amount).2.size = 0 ∧
      ((GrainEngine.empty : GrainEngine σ).process S F32.one F32.one).1 = (F32.zero, F32.zero) ∧
      (GrainEngine.empty : GrainEngine σ).isEmpty = true ∧
      (∀ eng : GrainEngine σ, eng.isEmpty = true ↔ eng.size = 0) := by
  refine ⟨rfl, rfl, rfl, rfl, rfl, ?_⟩
  intro eng
  cases eng with
  | mk q => cases q <;> simp [GrainEngine.isEmpty, GrainEngine.size]

/-! The first read of a new grain -/

theorem Grain.visit_of_unmarked (S : StereoSmooth σ) (g : Grain σ) (r s : F32)
    (h5 : g.erase_me = false) (h6 : g.marked_for_removal = false) :
    (Grain.visit S r s g).sample_position = g.readIndex ∧
      (Grain.visit S r s g).playback_position = (g.step S s).playback_position ∧
      (Grain.visit S r s g).erase_me = false ∧
      (Grain.visit S r s g).marked_for_removal = false ∧
      (Grain.visit S r s g).start_position = g.start_position ∧
      (Grain.visit S r s g).sample_ptr = g.sample_ptr := by
  unfold Grain.visit
  simp only [h5, Bool.false_eq_true, if_false]
  rw [Grain.getStereoOutput_unmarked S g r h5 h6]
  unfold Grain.step
  simp only [h5, if_true]
  refine ⟨?_, ?_, ?_, ?_, ?_, ?_⟩ <;> (split <;> first | rfl | exact h5 | exact h6)

theorem GrainEngine.process_add_queue (S : StereoSmooth σ) (eng : GrainEngine σ)
    (sp pl : F32) (smp : Sample) (r s : F32) :
    ((eng.add S sp pl smp).process S r s).2.grain_queue =
      (eng.process S r s).2.grain_queue ++ [Grain.visit S r s (Grain.fresh S sp pl smp)] := by
  rw [GrainEngine.process_grains, GrainEngine.process_grains]
  have he := (Grain.visit_of_unmarked S (Grain.fresh S sp pl smp) r s rfl rfl).2.2.1
  simp [GrainEngine.add, List.filter_append, List.filter, he]

set_option maxRecDepth 1000000 in
/-- Counterexample to C11: `add(8589934592.0f, 1.0f, sample)` on a three-frame
sample, then `process(1.0f, 1.0f)`.  The new grain is read with
`playback_position = 0`; `trunc(start_position) = 2 ^ 33` and
`2 ^ 33 mod 3 = 2`, but the conversion to `unsigned int` wraps and the index
read is `0`. -/
theorem C11_counterexample :
    (F32.trunc F32.two33).toNat % Sample.three.total_sample_count = 2 ∧
      (((GrainEngine.empty.add StereoSmooth.passthrough F32.two33 F32.one Sample.three).process
        StereoSmooth.passthrough F32.one F32.one).2.grain_queue.map Grain.sample_position) =
        [0] := by
  decide

/-- Claim C11 (amended). For every engine, every `add(start_position, playback_length,
sample)` with a binary32 `start_position` in `[0, 2 ^ 32)` (the range in which
its conversion to `unsigned int` is defined) and a non-empty sample, and every
`step_amount`: the first `process` call after the `add` keeps the new grain
last in the collection and has read it with `playback_position == 0`, at
index `trunc(start_position) mod total_sample_count`; its cursor is advanced
by `step` only after that read.  In general the index a `process` call reads
for a playing grain is computed from the cursor as it is before the call, and
the cursor that `step` leaves (wrapped or not) is the one the next call reads
at. -/
theorem C11_first_read_at_cursor_zero (S : StereoSmooth σ) (eng : GrainEngine σ)
    (start_position playback_length : F32) (sample_ptr : Sample)
    (smooth_rate step_amount : F32) (hv : F32.Valid start_position)
    (h0 : F32.le F32.zero start_position = true)
    (h32 : F32.lt start_position F32.two32 = true)
    (hL : 0 < sample_ptr.total_sample_count) :
    (((eng.add S start_position playback_length sample_ptr).process S smooth_rate
        step_amount).2.grain_queue =
        (eng.process S smooth_rate step_amount).2.grain_queue ++
          [Grain.visit S smooth_rate step_amount
            (Grain.fresh S start_position playback_length sample_ptr)]) ∧
      (Grain.fresh S start_position playback_length sample_ptr).playback_position = F32.zero ∧
      (Grain.visit S smooth_rate step_amount
          (Grain.fresh S start_position playback_length sample_ptr)).sample_position =
        (F32.trunc start_position).toNat % sample_ptr.total_sample_count ∧
      (Grain.visit S smooth_rate step_amount
          (Grain.fresh S start_position playback_length sample_ptr)).sample_position <
        sample_ptr.total_sample_count ∧
      (Grain.visit S smooth_rate step_amount
          (Grain.fresh S start_position playback_length sample_ptr)).playback_position =
        ((Grain.fresh S start_position playback_length sample_ptr).step S
          step_amount).playback_position ∧
      (∀ (g : Grain σ) (r s r' s' : F32), g.erase_me = false → g.marked_for_removal = false →
        (Grain.visit S r s g).sample_position = g.readIndex ∧
          (Grain.visit S r s g).playback_position = (g.step S s).playback_position ∧
          (Grain.visit S r' s' (Grain.visit S r s g)).sample_position =
            (Grain.visit S r s g).readIndex) := by
  have hidx : (Grain.fresh S start_position playback_length sample_ptr).readIndex =
      (F32.trunc start_position).toNat % sample_ptr.total_sample_count := by
    unfold Grain.readIndex Grain.fresh
    simp only [F32.add_zero_of_valid _ hv]
    rw [(F32.toUInt32_eq_trunc _ h0 h32).1]
  obtain ⟨v1, v2, _⟩ := Grain.visit_of_unmarked S
    (Grain.fresh S start_position playback_length sample_ptr) smooth_rate step_amount rfl rfl
  refine ⟨GrainEngine.process_add_queue S eng _ _ _ _ _, rfl, ?_, ?_, v2, ?_⟩
  · rw [v1, hidx]
  · rw [v1, hidx]
    exact Nat.mod_lt _ hL
  · intro g r s r' s' h5 h6
    obtain ⟨w1, w2, w3, w4, _, _⟩ := Grain.visit_of_unmarked S g r s h5 h6
    exact ⟨w1, w2, (Grain.visit_of_unmarked S _ r' s' w3 w4).1⟩

set_option maxRecDepth 1000000 in
/-- Witness for C11 (amended): a grain added at `start_position = 1.0f` on the
four-frame sample is first read at index `1`. -/
theorem C11_first_read_at_cursor_zero_witness :
    (Grain.visit StereoSmooth.passthrough F32.one F32.one
        (Grain.fresh StereoSmooth.passthrough F32.one (F32.ofNat 4) Sample.four)).sample_position =
      (F32.trunc F32.one).toNat % Sample.four.total_sample_count :=
  (C11_first_read_at_cursor_zero StereoSmooth.passthrough GrainEngine.empty F32.one
    (F32.ofNat 4) Sample.four F32.one F32.one (by decide) (by decide) (by decide)
    (by decide)).2.2.1

/-! Only marked grains leave the engine -/

theorem Grain.marked_of_output_erased (S : StereoSmooth σ) (g : Grain σ) (r : F32)
    (h5 : g.erase_me = false) (h : (g.getStereoOutput S r).2.erase_me = true) :
    g.marked_for_removal = true := by
  by_contra h6
  have h6' : g.marked_for_removal = false := by simpa using h6
  rw [Grain.getStereoOutput_unmarked S g r h5 h6'] at h
  simp only at h
  rw [h5] at h
  cases h

theorem Grain.visit_erase_me (S : StereoSmooth σ) (g : Grain σ) (r s : F32)
    (h5 : g.erase_me = false) :
    (Grain.visit S r s g).erase_me = (g.getStereoOutput S r).2.erase_me := by
  simp [Grain.visit, h5, Grain.step_erase_me]

/-- With no retired grain held, every grain removed by a `process` call had
`marked_for_removal = true` before that call, and if no held grain is marked
then `process` removes nothing. -/
theorem GrainEngine.only_marked_grains_leave_of_no_retired (S : StereoSmooth σ)
    (eng : GrainEngine σ)
    (smooth_rate step_amount : F32)
    (hno : ∀ g ∈ eng.grain_queue, g.erase_me = false) :
    (∀ g ∈ eng.grain_queue,
        Grain.visit S smooth_rate step_amount g ∉
          (eng.process S smooth_rate step_amount).2.grain_queue →
        g.marked_for_removal = true) ∧
      ((∀ g ∈ eng.grain_queue, g.marked_for_removal = false) →
        (eng.process S smooth_rate step_amount).2.grain_queue =
            eng.grain_queue.map (Grain.visit S smooth_rate step_amount) ∧
          (eng.process S smooth_rate step_amount).2.size = eng.size) := by
  constructor
  · intro g hg hnot
    rw [GrainEngine.process_grains] at hnot
    have he : (Grain.visit S smooth_rate step_amount g).erase_me = true := by
      by_contra hc
      apply hnot
      rw [List.mem_filter]
      exact ⟨List.mem_map_of_mem _ hg, by simpa using hc⟩
    rw [Grain.visit_erase_me S g _ _ (hno g hg)] at he
    exact Grain.marked_of_output_erased S g smooth_rate (hno g hg) he
  · intro hun
    have hq : (eng.process S smooth_rate step_amount).2.grain_queue =
        eng.grain_queue.map (Grain.visit S smooth_rate step_amount) := by
      rw [GrainEngine.process_grains]
      apply List.filter_eq_self.2
      intro v hv
      obtain ⟨g, hg, rfl⟩ := List.mem_map.1 hv
      have := (Grain.visit_of_unmarked S g smooth_rate step_amount (hno g hg) (hun g hg)).2.2.1
      simp [this]
    refine ⟨hq, ?_⟩
    unfold GrainEngine.size
    rw [hq, List.length_map]

/-- Claim C18. A grain never leaves the engine without having been marked: in every
engine state reachable from the empty engine through `add`,
`markAllForRemoval`, `markOldestForRemoval` and `process`, every grain removed
by a `process` call had `marked_for_removal = true` before that call, and if
no held grain is marked then `process` leaves `size()` and the order of the
grains unchanged (the `i`-th grain afterwards is the old `i`-th grain, read
and stepped). -/
theorem C18_only_marked_grains_leave (S : StereoSmooth σ) (eng : GrainEngine σ)
    (smooth_rate step_amount : F32) (h : GrainEngine.Reachable S eng) :
    (∀ g ∈ eng.grain_queue,
        Grain.visit S smooth_rate step_amount g ∉
          (eng.process S smooth_rate step_amount).2.grain_queue →
        g.marked_for_removal = true) ∧
      ((∀ g ∈ eng.grain_queue, g.marked_for_removal = false) →
        (eng.process S smooth_rate step_amount).2.grain_queue =
            eng.grain_queue.map (Grain.visit S smooth_rate step_amount) ∧
          (eng.process S smooth_rate step_amount).2.size = eng.size) :=
  GrainEngine.only_marked_grains_leave_of_no_retired S eng smooth_rate step_amount
    (GrainEngine.NoRetired_of_reachable S eng h)

set_option maxRecDepth 1000000 in
/-- Witness for C18: the reachable engine with two unmarked grains keeps its
size under `process`. -/
theorem C18_only_marked_grains_leave_witness :
    ((((GrainEngine.empty.add StereoSmooth.passthrough F32.zero F32.one Sample.unit).add
        StereoSmooth.passthrough F32.zero F32.one Sample.unit).process
          StereoSmooth.passthrough F32.one F32.one).2.size =
      ((GrainEngine.empty.add StereoSmooth.passthrough F32.zero F32.one Sample.unit).add
        StereoSmooth.passthrough F32.zero F32.one Sample.unit).size) :=
  ((C18_only_marked_grains_leave StereoSmooth.passthrough
    ((GrainEngine.empty.add StereoSmooth.passthrough F32.zero F32.one Sample.unit).add
      StereoSmooth.passthrough F32.zero F32.one Sample.unit) F32.one F32.one
    ((GrainEngine.Reachable.empty.add F32.zero F32.one Sample.unit).add
      F32.zero F32.one Sample.unit)).2 (by decide)).2

/-! The ramp over the life of a grain -/

set_option maxRecDepth 1000000 in
/-- The ramp values of the fade: non-negative throughout, below `1.0f` for
the first 100 increments, and `8472489 * 2 ^ (-23) > 1.0f` after the 101st. -/
theorem rampAfter_bounds : (∀ k, k < 102 → F32.le F32.zero (rampAfter k) = true) ∧
    (∀ k, k < 101 → F32.le (rampAfter k) F32.one = true) ∧
    rampAfter 101 = F32.finite 8472489 (-23) ∧
    F32.lt F32.one (rampAfter 101) = true ∧ F32.le (rampAfter 101) F32.one = false := by
  decide

theorem Grain.step_ramp (S : StereoSmooth σ) (g : Grain σ) (s : F32) :
    (g.step S s).removal_smoothing_ramp = g.removal_smoothing_ramp := by
  unfold Grain.step
  dsimp only
  split
  · split <;> rfl
  · rfl

theorem Grain.Lifecycle_call (S : StereoSmooth σ) (g : Grain σ) (c : GrainCall)
    (h : g.Lifecycle) : (Grain.call S g c).Lifecycle := by
  rcases h with ⟨h1, h2, h3⟩ | ⟨k, hk⟩
  · cases c with
    | getStereoOutput r =>
      left
      have e : Grain.call S g (GrainCall.getStereoOutput r) = (g.getStereoOutput S r).2 := rfl
      rw [e, Grain.getStereoOutput_unmarked S g r h3 h1]
      exact ⟨h1, h2, h3⟩
    | step s =>
      left
      have e : Grain.call S g (GrainCall.step s) = g.step S s := rfl
      rw [e, Grain.step_marked, Grain.step_ramp, Grain.step_erase_me]
      exact ⟨h1, h2, h3⟩
    | markForRemoval =>
      right
      exact ⟨0, Grain.Fading_zero_of_marked g h3 h2⟩
  · right
    cases c with
    | getStereoOutput r => exact ⟨k + 1, Grain.Fading_output S g r k hk⟩
    | step s => exact ⟨k, Grain.Fading_step S g s k hk⟩
    | markForRemoval => exact ⟨k, Grain.Fading_mark g k hk⟩

theorem Grain.Lifecycle_run (S : StereoSmooth σ) (calls : List GrainCall) :
    ∀ g : Grain σ, g.Lifecycle → (Grain.run S g calls).Lifecycle := by
  induction calls with
  | nil => intro g h; exact h
  | cons c cs ih =>
    intro g h
    exact ih _ (Grain.Lifecycle_call S g c h)

set_option maxRecDepth 1000000 in
/-- Claim C19, the code at the failing input: the example grain, marked and read
101 times.  Its fade is complete (`erase_me` is set) and its ramp is
`8472489 * 2 ^ (-23)`, about `1.0099994`, which is not `<= 1`. -/
theorem C19_code_at_failing_input :
    (Grain.run StereoSmooth.passthrough Grain.demo
        (GrainCall.markForRemoval ::
          List.replicate 101 (GrainCall.getStereoOutput F32.one))).erase_me = true ∧
      (Grain.run StereoSmooth.passthrough Grain.demo
        (GrainCall.markForRemoval ::
          List.replicate 101 (GrainCall.getStereoOutput F32.one))).removal_smoothing_ramp =
        F32.finite 8472489 (-23) ∧
      F32.le (F32.finite 8472489 (-23)) F32.one = false := by
  decide

/-- The ramp over the life of a grain.  In every grain state reachable from a freshly
created grain by any sequence of `getStereoOutput`, `step` and `markForRemoval` calls,
`removal_smoothing_ramp` is non-negative; it stays `0` while the grain is
unmarked and lies in `[0, 1)` as long as the grain is not retired; when the
fade completes the ramp has passed one and is not clamped: it is
`8472489 * 2 ^ (-23)`, the binary32 sum of 101 increments `0.01f`. -/
theorem Grain.ramp_range (S : StereoSmooth σ) (start_position playback_length : F32)
    (sample_ptr : Sample) (calls : List GrainCall) :
    F32.le F32.zero (Grain.run S (Grain.fresh S start_position playback_length sample_ptr)
        calls).removal_smoothing_ramp = true ∧
      ((Grain.run S (Grain.fresh S start_position playback_length sample_ptr)
          calls).marked_for_removal = false →
        (Grain.run S (Grain.fresh S start_position playback_length sample_ptr)
          calls).removal_smoothing_ramp = F32.zero) ∧
      ((Grain.run S (Grain.fresh S start_position playback_length sample_ptr)
          calls).erase_me = false →
        F32.lt (Grain.run S (Grain.fresh S start_position playback_length sample_ptr)
          calls).removal_smoothing_ramp F32.one = true) ∧
      ((Grain.run S (Grain.fresh S start_position playback_length sample_ptr)
          calls).erase_me = true →
        (Grain.run S (Grain.fresh S start_position playback_length sample_ptr)
          calls).removal_smoothing_ramp = F32.finite 8472489 (-23) ∧
        F32.lt F32.one (Grain.run S (Grain.fresh S start_position playback_length sample_ptr)
          calls).removal_smoothing_ramp = true) := by
  have hL := Grain.Lifecycle_run S calls (Grain.fresh S start_position playback_length sample_ptr)
    (Or.inl ⟨rfl, rfl, rfl⟩)
  generalize Grain.run S (Grain.fresh S start_position playback_length sample_ptr) calls = g at hL
  obtain ⟨b1, _, b3, b4, _⟩ := rampAfter_bounds
  rcases hL with ⟨h1, h2, h3⟩ | ⟨k, hm, hr, he⟩
  · refine ⟨by rw [h2]; decide, fun _ => h2, fun _ => by rw [h2]; decide, ?_⟩
    intro h; rw [h3] at h; cases h
  · refine ⟨?_, ?_, ?_, ?_⟩
    · rw [hr]; exact b1 _ (by omega)
    · intro h; rw [hm] at h; cases h
    · intro h
      rw [he] at h
      have hk : k < 101 := by simpa using h
      have : min k 101 = k := by omega
      rw [hr, this]
      exact (rampAfter_table k hk).1
    · intro h
      rw [he] at h
      have hk : 101 ≤ k := by simpa using h
      have : min k 101 = 101 := by omega
      rw [hr, this]
      exact ⟨b3, b4⟩

/-! Fields fixed at creation -/

theorem Grain.call_config (S : StereoSmooth σ) (g : Grain σ) (c : GrainCall) :
    (Grain.call S g c).config = g.config := by
  cases c with
  | getStereoOutput r =>
    show (g.getStereoOutput S r).2.config = g.config
    unfold Grain.getStereoOutput Grain.config
    dsimp only
    split
    · rfl
    · split <;> rfl
  | step s =>
    show (g.step S s).config = g.config
    unfold Grain.step Grain.config
    dsimp only
    split
    · split <;> rfl
    · rfl
  | markForRemoval =>
    show g.markForRemoval.config = g.config
    rw [Grain.markForRemoval_eq]
    rfl

theorem Grain.visit_config (S : StereoSmooth σ) (r s : F32) (g : Grain σ) :
    (Grain.visit S r s g).config = g.config := by
  unfold Grain.visit
  split
  · rfl
  · exact (Grain.call_config S _ (GrainCall.step s)).trans
      (Grain.call_config S g (GrainCall.getStereoOutput r))

/-- Claim C21. `start_position`, `playback_length` and the sample reference of a
grain never change after creation: no grain operation (`getStereoOutput`,
`step`, `markForRemoval`) changes them, `markAllForRemoval` and
`markOldestForRemoval` leave them as they are for the grain at every index,
and after `process` every grain still in the collection is a grain held
before (in the same order) with these three fields unchanged. -/
theorem C21_creation_fields_immutable (S : StereoSmooth σ) (g : Grain σ) (eng : GrainEngine σ)
    (smooth_rate step_amount : F32) (nth : Nat) :
    (g.getStereoOutput S smooth_rate).2.config = g.config ∧
      (g.step S step_amount).config = g.config ∧
      g.markForRemoval.config = g.config ∧
      eng.markAllForRemoval.grain_queue.map Grain.config = eng.grain_queue.map Grain.config ∧
      (eng.markOldestForRemoval nth).grain_queue.map Grain.config =
        eng.grain_queue.map Grain.config ∧
      (eng.process S smooth_rate step_amount).2.grain_queue.map Grain.config =
        ((eng.grain_queue.map (Grain.visit S smooth_rate step_amount)).filter
          (fun g => !g.erase_me)).map Grain.config ∧
      (∀ g' ∈ eng.grain_queue,
        (Grain.visit S smooth_rate step_amount g').config = g'.config) ∧
      List.Sublist ((eng.process S smooth_rate step_amount).2.grain_queue.map Grain.config)
        (eng.grain_queue.map Grain.config) := by
  have hm : ∀ q : List (Grain σ), (q.map Grain.markForRemoval).map Grain.config =
      q.map Grain.config := by
    intro q
    rw [List.map_map]
    apply List.map_congr_left
    intro a _
    exact Grain.call_config S a GrainCall.markForRemoval
  refine ⟨Grain.call_config S g (GrainCall.getStereoOutput smooth_rate),
    Grain.call_config S g (GrainCall.step step_amount),
    Grain.call_config S g GrainCall.markForRemoval, hm _, ?_, ?_, ?_, ?_⟩
  · rw [GrainEngine.markOldestForRemoval_queue, List.map_append, hm, ← List.map_append,
      List.take_append_drop]
  · rw [GrainEngine.process_grains]
  · intro g' _
    exact Grain.visit_config S _ _ g'
  · rw [GrainEngine.process_grains]
    have h1 : List.Sublist
        (((eng.grain_queue.map (Grain.visit S smooth_rate step_amount)).filter
          (fun g => !g.erase_me)).map Grain.config)
        ((eng.grain_queue.map (Grain.visit S smooth_rate step_amount)).map Grain.config) :=
      (List.filter_sublist _).map _
    have h2 : (eng.grain_queue.map (Grain.visit S smooth_rate step_amount)).map Grain.config =
        eng.grain_queue.map Grain.config := by
      rw [List.map_map]
      apply List.map_congr_left
      intro a _
      exact Grain.visit_config S _ _ a
    rw [h2] at h1
    exact h1

/-! Reading an unmarked grain -/

/-- Claim C23. For every non-retired grain that is not marked for removal,
`getStereoOutput(smooth_rate)` returns exactly the pair that the smoothing
filter's `process` gives for `(leftPlayBuffer[i], rightPlayBuffer[i])` at the
wrapped read index `i`, with no attenuation, and leaves
`removal_smoothing_ramp`, `marked_for_removal`, `erase_me` and
`playback_position` unchanged. -/
theorem C23_unmarked_output_is_smoothed_sample (S : StereoSmooth σ) (g : Grain σ)
    (smooth_rate : F32) (he : g.erase_me = false) (hm : g.marked_for_removal = false) :
    (g.getStereoOutput S smooth_rate).1 =
        (S.process g.loop_smooth
          (g.sample_ptr.leftPlayBuffer.getD g.readIndex F32.zero)
          (g.sample_ptr.rightPlayBuffer.getD g.readIndex F32.zero) smooth_rate).1 ∧
      g.readIndex =
        F32.toUInt32 (F32.add g.start_position g.playback_position) %
          g.sample_ptr.total_sample_count ∧
      (g.getStereoOutput S smooth_rate).2.removal_smoothing_ramp = g.removal_smoothing_ramp ∧
      (g.getStereoOutput S smooth_rate).2.marked_for_removal = g.marked_for_removal ∧
      (g.getStereoOutput S smooth_rate).2.erase_me = g.erase_me ∧
      (g.getStereoOutput S smooth_rate).2.playback_position = g.playback_position := by
  rw [Grain.getStereoOutput_unmarked S g smooth_rate he hm]
  exact ⟨rfl, rfl, rfl, rfl, rfl, rfl⟩

set_option maxRecDepth 1000000 in
/-- Witness for C23: the fresh example grain returns the sample value `1.0f` unchanged. -/
theorem C23_unmarked_output_is_smoothed_sample_witness :
    (Grain.demo.getStereoOutput StereoSmooth.passthrough F32.one).1 =
      (StereoSmooth.passthrough.process Grain.demo.loop_smooth
        (Grain.demo.sample_ptr.leftPlayBuffer.getD Grain.demo.readIndex F32.zero)
        (Grain.demo.sample_ptr.rightPlayBuffer.getD Grain.demo.readIndex F32.zero) F32.one).1 :=
  (C23_unmarked_output_is_smoothed_sample StereoSmooth.passthrough Grain.demo F32.one
    rfl rfl).1

/-! The two flags and the ramp -/

set_option maxRecDepth 1000000 in
/-- The ramp is `≥ 1.0f` after exactly 101 increments, not after fewer. -/
theorem rampAfter_ge_one : ∀ k, k < 102 →
    F32.ge (rampAfter k) F32.one = decide (101 ≤ k) := by
  decide

/-- Claim C25. In every grain state reachable from a freshly created grain by
`getStereoOutput`, `step` and `markForRemoval` calls, the two flags never form
an invalid combination: `erase_me = true` implies `marked_for_removal = true`
and `removal_smoothing_ramp >= 1`, and conversely a marked grain with
`removal_smoothing_ramp >= 1` has `erase_me = true`. -/
theorem C25_flags_consistent (S : StereoSmooth σ) (start_position playback_length : F32)
    (sample_ptr : Sample) (calls : List GrainCall) :
    ((Grain.run S (Grain.fresh S start_position playback_length sample_ptr)
          calls).erase_me = true →
        (Grain.run S (Grain.fresh S start_position playback_length sample_ptr)
          calls).marked_for_removal = true ∧
        F32.ge (Grain.run S (Grain.fresh S start_position playback_length sample_ptr)
          calls).removal_smoothing_ramp F32.one = true) ∧
      ((Grain.run S (Grain.fresh S start_position playback_length sample_ptr)
          calls).marked_for_removal = true →
        F32.ge (Grain.run S (Grain.fresh S start_position playback_length sample_ptr)
          calls).removal_smoothing_ramp F32.one = true →
        (Grain.run S (Grain.fresh S start_position playback_length sample_ptr)
          calls).erase_me = true) := by
  have hL := Grain.Lifecycle_run S calls (Grain.fresh S start_position playback_length sample_ptr)
    (Or.inl ⟨rfl, rfl, rfl⟩)
  generalize Grain.run S (Grain.fresh S start_position playback_length sample_ptr) calls = g at hL
  rcases hL with ⟨h1, h2, h3⟩ | ⟨k, hm, hr, he⟩
  · constructor
    · intro h; rw [h3] at h; cases h
    · intro h; rw [h1] at h; cases h
  · have hk : min k 101 < 102 := by omega
    have hge := rampAfter_ge_one (min k 101) hk
    constructor
    · intro h
      rw [he] at h
      have h101 : 101 ≤ k := by simpa using h
      refine ⟨hm, ?_⟩
      rw [hr, hge]
      simp
      omega
    · intro _ h
      rw [hr, hge] at h
      have : 101 ≤ min k 101 := by simpa using h
      rw [he]
      simp
      omega

/-! Many grains over many process calls -/

theorem Grain.visit_of_erased (S : StereoSmooth σ) (r s : F32) (g : Grain σ)
    (h : g.erase_me = true) : Grain.visit S r s g = g := by
  simp [Grain.visit, h]

theorem Grain.visits_of_erased (S : StereoSmooth σ) (args : List (F32 × F32)) :
    ∀ g : Grain σ, g.erase_me = true → Grain.visits S g args = g := by
  induction args with
  | nil => intro g _; rfl
  | cons a rest ih =>
    intro g h
    simp only [Grain.visits, Grain.visit_of_erased S a.1 a.2 g h]
    exact ih g h

theorem List.filter_map_filter_of_stable {α : Type} (p : α → Bool) (f : α → α)
    (hf : ∀ x, p x = false → p (f x) = false) (l : List α) :
    (List.map f (l.filter p)).filter p = (List.map f l).filter p := by
  induction l with
  | nil => rfl
  | cons x xs ih =>
    by_cases hx : p x = true
    · by_cases hfx : p (f x) = true
      · simp [List.filter_cons, hx, hfx, ih]
      · simp [List.filter_cons, hx, hfx, ih]
    · have hx' : p x = false := by simpa using hx
      have hfx := hf x hx'
      simp [List.filter_cons, hx', hfx, ih]

theorem GrainEngine.processMany_queue (S : StereoSmooth σ) (args : List (F32 × F32)) :
    ∀ q : List (Grain σ), (∀ g ∈ q, g.erase_me = false) →
      (GrainEngine.processMany S { grain_queue := q } args).grain_queue =
        (q.map fun g => Grain.visits S g args).filter (fun g => !g.erase_me) := by
  induction args with
  | nil =>
    intro q hq
    simp only [GrainEngine.processMany, Grain.visits, List.map_id']
    symm
    apply List.filter_eq_self.2
    intro g hg
    simp [hq g hg]
  | cons a rest ih =>
    intro q hq
    have e : (GrainEngine.process S { grain_queue := q } a.1 a.2).2 =
        { grain_queue := (q.map (Grain.visit S a.1 a.2)).filter (fun g => !g.erase_me) } := by
      cases hh : (GrainEngine.process S { grain_queue := q } a.1 a.2).2
      have := GrainEngine.process_grains S { grain_queue := q } a.1 a.2
      rw [hh] at this
      simp only at this
      rw [this]
    simp only [GrainEngine.processMany, e]
    rw [ih _ (by
      intro g hg
      simpa using (List.mem_filter.1 hg).2)]
    have hstable : ∀ x : Grain σ, (fun g : Grain σ => !g.erase_me) x = false →
        (fun g : Grain σ => !g.erase_me) (Grain.visits S x rest) = false := by
      intro x hx
      have hx' : x.erase_me = true := by simpa using hx
      simp only [Grain.visits_of_erased S rest x hx', hx']
      rfl
    rw [List.filter_map_filter_of_stable _ _ hstable, List.map_map]
    rfl

theorem Grain.Fading_visit (S : StereoSmooth σ) (r s : F32) (g : Grain σ) (k : Nat)
    (h : g.Fading k) : (Grain.visit S r s g).Fading (k + 1) := by
  unfold Grain.visit
  split
  · next he =>
    obtain ⟨h1, h2, h3⟩ := h
    have hk : 101 ≤ k := by rw [h3] at he; simpa using he
    refine ⟨h1, ?_, ?_⟩
    · rw [h2]; congr 1; omega
    · rw [he]; simp; omega
  · exact Grain.Fading_step S _ s _ (Grain.Fading_output S g r k h)

theorem Grain.Fading_visits (S : StereoSmooth σ) (args : List (F32 × F32)) :
    ∀ (g : Grain σ) (k : Nat), g.Fading k → (Grain.visits S g args).Fading (k + args.length) := by
  induction args with
  | nil => intro g k h; simpa [Grain.visits] using h
  | cons a rest ih =>
    intro g k h
    have := ih _ _ (Grain.Fading_visit S a.1 a.2 g k h)
    simp only [Grain.visits, List.length_cons]
    have e : k + (rest.length + 1) = k + 1 + rest.length := by omega
    rw [e]; exact this

theorem Grain.Playing_visit (S : StereoSmooth σ) (r s : F32) (g : Grain σ)
    (h : g.Playing) : (Grain.visit S r s g).Playing := by
  obtain ⟨h1, h2, h3⟩ := h
  obtain ⟨_, _, v3, v4, _, _⟩ := Grain.visit_of_unmarked S g r s h3 h1
  refine ⟨v4, ?_, v3⟩
  unfold Grain.visit
  simp only [h3, Bool.false_eq_true, if_false]
  rw [Grain.step_ramp, Grain.getStereoOutput_unmarked S g r h3 h1]
  exact h2

theorem Grain.Playing_visits (S : StereoSmooth σ) (args : List (F32 × F32)) :
    ∀ g : Grain σ, g.Playing → (Grain.visits S g args).Playing := by
  induction args with
  | nil => intro g h; exact h
  | cons a rest ih =>
    intro g h
    exact ih _ (Grain.Playing_visit S a.1 a.2 g h)

theorem Grain.visits_config (S : StereoSmooth σ) (args : List (F32 × F32)) :
    ∀ g : Grain σ, (Grain.visits S g args).config = g.config := by
  induction args with
  | nil => intro g; rfl
  | cons a rest ih =>
    intro g
    exact (ih _).trans (Grain.visit_config S a.1 a.2 g)

theorem GrainEngine.fading_part (S : StereoSmooth σ) (args : List (F32 × F32))
    (l : List (Grain σ)) (hl : ∀ g ∈ l, ∃ k, g.Fading k) :
    (101 ≤ args.length →
        (l.map fun g => Grain.visits S g args).filter (fun g => !g.erase_me) = []) := by
  intro hlen
  apply List.filter_eq_nil_iff.2
  intro v hv
  obtain ⟨g, hg, rfl⟩ := List.mem_map.1 hv
  obtain ⟨k, hk⟩ := hl g hg
  have := (Grain.Fading_visits S args g k hk).2.2
  rw [this]
  simp
  omega

theorem GrainEngine.fresh_fading_part (S : StereoSmooth σ) (args : List (F32 × F32))
    (l : List (Grain σ)) (hl : ∀ g ∈ l, g.Fading 0) (hlen : args.length ≤ 100) :
    (l.map fun g => Grain.visits S g args).filter (fun g => !g.erase_me) =
      l.map fun g => Grain.visits S g args := by
  apply List.filter_eq_self.2
  intro v hv
  obtain ⟨g, hg, rfl⟩ := List.mem_map.1 hv
  have := (Grain.Fading_visits S args g 0 (hl g hg)).2.2
  rw [this]
  simp
  omega

theorem GrainEngine.playing_part (S : StereoSmooth σ) (args : List (F32 × F32))
    (l : List (Grain σ)) (hl : ∀ g ∈ l, g.Playing) :
    (l.map fun g => Grain.visits S g args).filter (fun g => !g.erase_me) =
      l.map fun g => Grain.visits S g args := by
  apply List.filter_eq_self.2
  intro v hv
  obtain ⟨g, hg, rfl⟩ := List.mem_map.1 hv
  have := (Grain.Playing_visits S args g (hl g hg)).2.2
  simp [this]

theorem GrainEngine.markOldest_processMany (S : StereoSmooth σ) (eng : GrainEngine σ) (k : Nat)
    (args : List (F32 × F32)) (hq : ∀ g ∈ eng.grain_queue, g.Playing) :
    (GrainEngine.processMany S (eng.markOldestForRemoval k) args).grain_queue =
      (((eng.grain_queue.take k).map Grain.markForRemoval).map
          fun g => Grain.visits S g args).filter (fun g => !g.erase_me) ++
        (eng.grain_queue.drop k).map fun g => Grain.visits S g args := by
  have hno : ∀ g ∈ (eng.markOldestForRemoval k).grain_queue, g.erase_me = false := by
    intro g hg
    rw [GrainEngine.markOldestForRemoval_queue] at hg
    simp only [List.mem_append, List.mem_map] at hg
    rcases hg with ⟨a, ha, rfl⟩ | hg
    · rw [Grain.markForRemoval_erase_me]
      exact (hq a (List.mem_of_mem_take ha)).2.2
    · exact (hq g (List.mem_of_mem_drop hg)).2.2
  have h := GrainEngine.processMany_queue S args (eng.markOldestForRemoval k).grain_queue hno
  have he : (eng.markOldestForRemoval k) =
      { grain_queue := (eng.markOldestForRemoval k).grain_queue } := rfl
  rw [he, h, GrainEngine.markOldestForRemoval_queue, List.map_append, List.filter_append,
    GrainEngine.playing_part S args _ (fun g hg => hq g (List.mem_of_mem_drop hg))]

set_option maxRecDepth 1000000 in
/-- Counterexample to C22: two unmarked fresh grains, `markOldestForRemoval(1)`, then
100 `process` calls.  The engine still holds both grains, the marked oldest
one included (its ramp is at `16777205 * 2 ^ (-24) < 1`). -/
theorem C22_counterexample :
    (∀ g ∈ GrainEngine.demoTwo.grain_queue, g.marked_for_removal = false) ∧
      GrainEngine.demoTwo.size = 2 ∧
      (GrainEngine.processMany StereoSmooth.passthrough
        (GrainEngine.demoTwo.markOldestForRemoval 1)
        (List.replicate 100 (F32.one, F32.one))).size = 2 ∧
      (GrainEngine.processMany StereoSmooth.passthrough
        (GrainEngine.demoTwo.markOldestForRemoval 1)
        (List.replicate 100 (F32.one, F32.one))).grain_queue.map Grain.marked_for_removal =
        [true, false] := by
  decide

/-- Claim C22 (amended). Voice-budget policy end to end: for every engine holding
`n` playing grains (unmarked, ramp `0`, not retired) and every `k < n`, after
`markOldestForRemoval(k)` followed by 101 (or more) `process` calls with any
arguments the engine holds exactly the `n - k` most recently added grains, in
their original order and still unmarked, and none of the `k` oldest; after
100 calls or fewer it still holds all `n` grains. -/
theorem C22_voice_budget (S : StereoSmooth σ) (eng : GrainEngine σ) (k : Nat)
    (args : List (F32 × F32)) (hq : ∀ g ∈ eng.grain_queue, g.Playing) (hk : k < eng.size) :
    (101 ≤ args.length →
        (GrainEngine.processMany S (eng.markOldestForRemoval k) args).grain_queue =
            (eng.grain_queue.drop k).map (fun g => Grain.visits S g args) ∧
          (GrainEngine.processMany S (eng.markOldestForRemoval k) args).size = eng.size - k ∧
          (∀ g ∈ (GrainEngine.processMany S (eng.markOldestForRemoval k) args).grain_queue,
            g.marked_for_removal = false) ∧
          (GrainEngine.processMany S (eng.markOldestForRemoval k) args).grain_queue.map
              Grain.config = (eng.grain_queue.drop k).map Grain.config) ∧
      (args.length ≤ 100 →
        (GrainEngine.processMany S (eng.markOldestForRemoval k) args).size = eng.size) := by
  have hmain := GrainEngine.markOldest_processMany S eng k args hq
  have hfad : ∀ g ∈ (eng.grain_queue.take k).map Grain.markForRemoval, g.Fading 0 := by
    intro g hg
    obtain ⟨a, ha, rfl⟩ := List.mem_map.1 hg
    have hp := hq a (List.mem_of_mem_take ha)
    exact Grain.Fading_zero_of_marked a hp.2.2 hp.2.1
  constructor
  · intro hlen
    have hnil := GrainEngine.fading_part S args _ (fun g hg => ⟨0, hfad g hg⟩) hlen
    rw [hnil, List.nil_append] at hmain
    refine ⟨hmain, ?_, ?_, ?_⟩
    · unfold GrainEngine.size
      rw [hmain, List.length_map, List.length_drop]
    · intro g hg
      rw [hmain] at hg
      obtain ⟨a, ha, rfl⟩ := List.mem_map.1 hg
      exact (Grain.Playing_visits S args a (hq a (List.mem_of_mem_drop ha))).1
    · rw [hmain, List.map_map]
      apply List.map_congr_left
      intro a _
      exact Grain.visits_config S args a
  · intro hlen
    rw [GrainEngine.fresh_fading_part S args _ hfad hlen] at hmain
    unfold GrainEngine.size at hk ⊢
    rw [hmain]
    simp only [List.length_append, List.length_map, List.length_take, List.length_drop]
    omega

set_option maxRecDepth 1000000 in
/-- Witness for C22 (amended): two fresh grains, the oldest marked, 101 `process`
calls: one grain is left. -/
theorem C22_voice_budget_witness :
    (GrainEngine.processMany StereoSmooth.passthrough
        (GrainEngine.demoTwo.markOldestForRemoval 1)
        (List.replicate 101 (F32.one, F32.one))).size = GrainEngine.demoTwo.size - 1 :=
  ((C22_voice_budget StereoSmooth.passthrough GrainEngine.demoTwo 1
    (List.replicate 101 (F32.one, F32.one)) (by decide) (by decide)).1 (by decide)).2.1

/-! Fading out the whole engine -/

theorem Grain.Lifecycle_visit (S : StereoSmooth σ) (r s : F32) (g : Grain σ)
    (h : g.Lifecycle) : (Grain.visit S r s g).Lifecycle := by
  unfold Grain.visit
  split
  · exact h
  · exact Grain.Lifecycle_call S _ (GrainCall.step s)
      (Grain.Lifecycle_call S g (GrainCall.getStereoOutput r) h)

theorem GrainEngine.Lifecycle_of_reachable (S : StereoSmooth σ) (eng : GrainEngine σ)
    (h : GrainEngine.Reachable S eng) : ∀ g ∈ eng.grain_queue, g.Lifecycle := by
  induction h with
  | empty => intro g hg; simp [GrainEngine.empty] at hg
  | add _ sp pl smp ih =>
    intro g hg
    simp only [GrainEngine.add, List.mem_append, List.mem_singleton] at hg
    rcases hg with hg | hg
    · exact ih g hg
    · subst hg; exact Or.inl ⟨rfl, rfl, rfl⟩
  | markAllForRemoval _ ih =>
    intro g hg
    simp only [GrainEngine.markAllForRemoval, List.mem_map] at hg
    obtain ⟨a, ha, rfl⟩ := hg
    exact Grain.Lifecycle_call S a GrainCall.markForRemoval (ih a ha)
  | markOldestForRemoval _ nth ih =>
    intro g hg
    rw [GrainEngine.markOldestForRemoval_queue] at hg
    simp only [List.mem_append, List.mem_map] at hg
    rcases hg with ⟨a, ha, rfl⟩ | hg
    · exact Grain.Lifecycle_call S a GrainCall.markForRemoval (ih a (List.mem_of_mem_take ha))
    · exact ih g (List.mem_of_mem_drop hg)
  | process _ r s ih =>
    intro g hg
    rw [GrainEngine.process_grains] at hg
    obtain ⟨a, ha, rfl⟩ := List.mem_map.1 (List.mem_filter.1 hg).1
    exact Grain.Lifecycle_visit S r s a (ih a ha)

theorem Grain.Fading_of_marked_lifecycle (g : Grain σ) (h : g.Lifecycle) :
    ∃ k, g.markForRemoval.Fading k := by
  rcases h with ⟨_, h2, h3⟩ | ⟨k, hk⟩
  · exact ⟨0, Grain.Fading_zero_of_marked g h3 h2⟩
  · exact ⟨k, Grain.Fading_mark g k hk⟩

theorem GrainEngine.process_size_le (S : StereoSmooth σ) (eng : GrainEngine σ) (r s : F32) :
    (eng.process S r s).2.size ≤ eng.size := by
  unfold GrainEngine.size
  rw [GrainEngine.process_grains]
  calc ((eng.grain_queue.map (Grain.visit S r s)).filter (fun g => !g.erase_me)).length
      ≤ (eng.grain_queue.map (Grain.visit S r s)).length := List.length_filter_le _ _
    _ = eng.grain_queue.length := List.length_map _ _

set_option maxRecDepth 1000000 in
/-- Counterexample to C24: the reachable engine holding one fresh grain;
`markAllForRemoval()` followed by 100 `process` calls leaves the grain in the
engine (`isEmpty()` is false). -/
theorem C24_counterexample :
    GrainEngine.Reachable StereoSmooth.passthrough
        (GrainEngine.empty.add StereoSmooth.passthrough F32.zero F32.one Sample.unit) ∧
      (GrainEngine.processMany StereoSmooth.passthrough
        (GrainEngine.empty.add StereoSmooth.passthrough F32.zero F32.one
          Sample.unit).markAllForRemoval
        (List.replicate 100 (F32.one, F32.one))).isEmpty = false ∧
      (GrainEngine.processMany StereoSmooth.passthrough
        (GrainEngine.empty.add StereoSmooth.passthrough F32.zero F32.one
          Sample.unit).markAllForRemoval
        (List.replicate 100 (F32.one, F32.one))).size = 1 :=
  ⟨GrainEngine.Reachable.empty.add F32.zero F32.one Sample.unit, by decide, by decide⟩

/-- Claim C24 (amended). From every reachable engine state (grains unmarked or at any
stage of their fade), `markAllForRemoval()` followed by 101 (or more)
`process` calls with any arguments leaves the engine empty (`isEmpty()` is
true); and, no `add` being called in between, `size()` never increases
during those calls. -/
theorem C24_fade_out_all (S : StereoSmooth σ) (eng : GrainEngine σ)
    (args : List (F32 × F32)) (h : GrainEngine.Reachable S eng) :
    (101 ≤ args.length →
        (GrainEngine.processMany S eng.markAllForRemoval args).isEmpty = true ∧
          (GrainEngine.processMany S eng.markAllForRemoval args).size = 0) ∧
      eng.markAllForRemoval.size = eng.size ∧
      (∀ a : F32 × F32,
        (GrainEngine.processMany S eng.markAllForRemoval (args ++ [a])).size ≤
          (GrainEngine.processMany S eng.markAllForRemoval args).size) := by
  refine ⟨?_, by simp [GrainEngine.markAllForRemoval, GrainEngine.size], ?_⟩
  · intro hlen
    have hno : ∀ g ∈ eng.markAllForRemoval.grain_queue, g.erase_me = false :=
      GrainEngine.NoRetired_of_reachable S _ h.markAllForRemoval
    have hq := GrainEngine.processMany_queue S args eng.markAllForRemoval.grain_queue hno
    have he : eng.markAllForRemoval = { grain_queue := eng.markAllForRemoval.grain_queue } := rfl
    rw [← he] at hq
    have hfad : ∀ g ∈ eng.markAllForRemoval.grain_queue, ∃ k, g.Fading k := by
      intro g hg
      simp only [GrainEngine.markAllForRemoval, List.mem_map] at hg
      obtain ⟨a, ha, rfl⟩ := hg
      exact Grain.Fading_of_marked_lifecycle a (GrainEngine.Lifecycle_of_reachable S eng h a ha)
    rw [GrainEngine.fading_part S args _ hfad hlen] at hq
    simp [GrainEngine.isEmpty, GrainEngine.size, hq]
  · intro a
    rw [GrainEngine.processMany_append]
    exact GrainEngine.process_size_le S _ a.1 a.2

set_option maxRecDepth 1000000 in
/-- Witness for C24 (amended): one fresh grain, marked, is gone after 101 `process` calls. -/
theorem C24_fade_out_all_witness :
    (GrainEngine.processMany StereoSmooth.passthrough
        (GrainEngine.empty.add StereoSmooth.passthrough F32.zero F32.one
          Sample.unit).markAllForRemoval
        (List.replicate 101 (F32.one, F32.one))).isEmpty = true :=
  ((C24_fade_out_all StereoSmooth.passthrough
    (GrainEngine.empty.add StereoSmooth.passthrough F32.zero F32.one Sample.unit)
    (List.replicate 101 (F32.one, F32.one))
    (GrainEngine.Reachable.empty.add F32.zero F32.one Sample.unit)).1 (by decide)).1

/-! Points within the viewport -/

set_option maxRecDepth 1000000 in
/-- The sequencer as constructed has all three points in its viewport:
the method returns `(0, 2)`; moved to offset `150` it returns `(1, 2)`, and
with the viewport beyond all points `(0, 0)`. -/
theorem TimelineSequencer.initial_indexes :
    TimelineSequencer.initial.getPointIndexesWithinViewport = (0, 2) ∧
      ({ TimelineSequencer.initial with
          viewport := { TimelineSequencer.initial.viewport with offset := F32.ofNat 150 } }
        ).getPointIndexesWithinViewport = (1, 2) ∧
      ({ TimelineSequencer.initial with
          viewport := { TimelineSequencer.initial.viewport with offset := F32.ofNat 1000 } }
        ).getPointIndexesWithinViewport = (0, 0) := by
  decide

/-! The test of the loop is membership in the viewport -/

